import Mathlib

/-!
Shallow embedding of the `listmap` package (an ordered doubly linked list
map over a growable memory-mapped file) together with proofs about its
`Set`, `Get` and `Remove` operations.

Modelling conventions, justified against the Go source:

* The mapped region is modelled at record granularity: `LM.store` maps a
  byte offset to the record whose header starts there, and `LM.size` is
  the length of the mapped region (in the source `len(l.mapped)` and
  `l.fileSize` are always equal, so a single field models both).
* Offsets and the 16-bit length fields are `Nat` with explicit `% 65536`
  where the source performs `uint16` conversions or `uint16` addition.
* Reading or writing a record header at offset 0 overlays the root
  struct (`first`/`last`/`lastInserted`), exactly as the source's
  pointer cast does: `prev` aliases `first` (bytes 0-7), `next` aliases
  `last` (bytes 8-15), and `keylen`/`vallen`/`removed` alias bytes
  16-17, 18-19 and 20 of the root, i.e. pieces of `lastInserted`
  (little-endian, as on the 64-bit platforms the package targets).
* Struct sizes (`unsafe.Sizeof`) are computed from Go's field layout
  rules (`goStructSize` below); the record header occupies 24 bytes, not
  the 21 bytes of summed field widths, because of trailing padding.
* `copy` into the region stores the full `key ++ value` byte list as the
  record's payload; `Key()`/`Value()` read back only the first
  `keylen`/`vallen` bytes of it, as the source does.
* Cursor loops are modelled with explicit fuel (`s.size` steps); on the
  well-formed states reachable by the public API the walks are proved to
  terminate long before the fuel runs out.
-/

namespace Listmap

/-! ### Go struct layout (`unsafe.Sizeof`) -/

/-- Round `off` up to a multiple of the alignment `a`. -/
def alignUp (off a : Nat) : Nat := (off + a - 1) / a * a

/-- Offset one past the last field, laying out fields (size, alignment)
in order with Go's alignment rule. -/
def fieldsEnd : Nat → List (Nat × Nat) → Nat
  | off, [] => off
  | off, (sz, al) :: rest => fieldsEnd (alignUp off al + sz) rest

/-- Alignment of a struct: maximum alignment of its fields. -/
def maxAlign : List (Nat × Nat) → Nat
  | [] => 1
  | (_, al) :: rest => max al (maxAlign rest)

/-- Size of a Go struct with the given (size, alignment) fields:
fields laid out in order, total rounded up to the struct alignment. -/
def goStructSize (fields : List (Nat × Nat)) : Nat :=
  alignUp (fieldsEnd 0 fields) (maxAlign fields)

/-- Fields of `type record`: prev uint64, next uint64, keylen uint16,
vallen uint16, removed bool. -/
def recordFields : List (Nat × Nat) := [(8, 8), (8, 8), (2, 2), (2, 2), (1, 1)]

/-- Fields of `type root`: first, last, lastInserted, all uint64. -/
def rootFields : List (Nat × Nat) := [(8, 8), (8, 8), (8, 8)]

/-- `recordLength = unsafe.Sizeof(record{})`. -/
def recordLength : Nat := goStructSize recordFields

/-- `rootLength = unsafe.Sizeof(root{})`. -/
def rootLength : Nat := goStructSize rootFields

/-- Sum of the widths of the five header fields, with no padding. -/
def headerFieldWidths : Nat := 8 + 8 + 2 + 2 + 1

/-- `constTruncateResize = 1 << 16`, the growth chunk. -/
def constTruncateResize : Nat := 65536

/-! ### Byte-string comparison (`bytes.Compare`) -/

/-- Lexicographic comparison of byte strings, as `bytes.Compare`. -/
def bcmp : List Nat → List Nat → Ordering
  | [], [] => .eq
  | [], _ :: _ => .lt
  | _ :: _, [] => .gt
  | a :: as, b :: bs =>
    if a < b then .lt else if b < a then .gt else bcmp as bs

/-! ### Records and map state -/

/-- A record header plus the payload bytes stored after it.  `keylen` and
`vallen` are the stored `uint16` fields; `payload` is the byte string
written by `copy` (the source's `append(key, value...)`). -/
structure Rec where
  prev : Nat
  next : Nat
  keylen : Nat
  vallen : Nat
  removed : Bool
  payload : List Nat
deriving DecidableEq, Repr

/-- `Cursor.Key`: the `keylen` bytes following the header. -/
def Rec.key (r : Rec) : List Nat := r.payload.take r.keylen

/-- `Cursor.Value`: the `vallen` bytes following the key. -/
def Rec.value (r : Rec) : List Nat := (r.payload.drop r.keylen).take r.vallen

/-- Number of mapped bytes a record occupies: header plus payload fields. -/
def recSize (r : Rec) : Nat := recordLength + r.keylen + r.vallen

/-- Zero-filled memory decoded as a record. -/
def emptyRec : Rec := ⟨0, 0, 0, 0, false, []⟩

/-- State of a `Listmap`: root fields, the record heap and the mapped
length (equal to the file size throughout the source). -/
structure LM where
  first : Nat
  last : Nat
  lastInserted : Nat
  store : Nat → Rec
  size : Nat

/-- State after `NewListmap`: file truncated to `rootLength` zero bytes. -/
def initLM : LM := ⟨0, 0, 0, fun _ => emptyRec, rootLength⟩

/-- Setting byte 4 of a `uint64` to 1 (the effect of writing `true` into
the `removed` byte when it overlays `lastInserted`). -/
def setRemovedByte (n : Nat) : Nat :=
  n % 4294967296 + 4294967296 + n / 1099511627776 * 1099511627776

/-- The root struct's bytes decoded as a record header, which is what a
cursor at offset 0 sees: `prev` aliases `first`, `next` aliases `last`,
`keylen`/`vallen`/`removed` alias bytes 0-1, 2-3 and 4 of
`lastInserted`.  `Key()` at offset 0 reads `keylen` bytes from offset
`rootLength`; in every state of this development such a read happens
only with `keylen = 0`, so the payload is empty. -/
def rootRec (s : LM) : Rec :=
  { prev := s.first
    next := s.last
    keylen := s.lastInserted % 65536
    vallen := s.lastInserted / 65536 % 65536
    removed := s.lastInserted / 4294967296 % 256 != 0
    payload := [] }

/-- Dereference a record pointer at offset `i`. -/
def readRec (s : LM) (i : Nat) : Rec :=
  if i = 0 then rootRec s else s.store i

/-- Write the `next` field of the record at offset `i`. -/
def writeNext (s : LM) (i v : Nat) : LM :=
  if i = 0 then { s with last := v }
  else { s with store := Function.update s.store i { s.store i with next := v } }

/-- Write the `prev` field of the record at offset `i`. -/
def writePrev (s : LM) (i v : Nat) : LM :=
  if i = 0 then { s with first := v }
  else { s with store := Function.update s.store i { s.store i with prev := v } }

/-- Write `true` into the `removed` field of the record at offset `i`. -/
def writeRemoved (s : LM) (i : Nat) : LM :=
  if i = 0 then { s with lastInserted := setRemovedByte s.lastInserted }
  else { s with store := Function.update s.store i { s.store i with removed := true } }

/-! ### The operations -/

/-- Result of `Set`: `ok` is a nil error, `keyPresent` is
`ErrKeyPresent`, `growthFailed` is `ErrFileTruncateError`, `unknownErr`
is `ErrUnknown`, `panicked` marks the nil-cursor dereference
`cursor.Next().r` and `fuelOut` marks a non-terminating walk (neither
occurs on states reachable through the public API). -/
inductive SetRes where
  | ok
  | keyPresent
  | growthFailed
  | unknownErr
  | panicked
  | fuelOut
deriving DecidableEq, Repr

/-- Result of `Get`: a value with nil error, or `ErrKeyNotFound`;
`fuelOut` marks a non-terminating walk. -/
inductive GetRes where
  | found (v : List Nat)
  | notFound
  | fuelOut
deriving DecidableEq, Repr

/-- The backward scan of `Set`'s general path ("find last less than",
listmap.go lines 196-222), starting at the cursor position `i`:
an equal live key fails with `ErrKeyPresent`; a strictly smaller key
splices the new record at `ci` after it with four link writes in source
order; otherwise the cursor retreats, returning `ErrUnknown` when it
falls off the head. -/
def walkGen : Nat → LM → Nat → List Nat → Nat → LM × SetRes
  | 0, s, _, _, _ => (s, .fuelOut)
  | fuel + 1, s, ci, key, i =>
    let r := readRec s i
    if bcmp r.key key = .eq ∧ r.removed = false then
      (s, .keyPresent)
    else if bcmp r.key key = .lt then
      let ni := r.next
      if ni = 0 then (s, .panicked)
      else
        let s1 := writeNext s ci ni
        let s2 := writePrev s1 ci i
        let s3 := writeNext s2 i ci
        let s4 := writePrev s3 ni ci
        (s4, .ok)
    else
      let pi := r.prev
      if pi = 0 then (s, .unknownErr)
      else walkGen fuel s ci key pi

/-- The first-record branch of `Set` (listmap.go lines 152-163): write
`keylen`, `vallen` and the payload at offset `rootLength` (the other
header bytes keep whatever the memory held) and point all three root
fields at it. -/
def firstState (s : LM) (key value : List Nat) : LM :=
  { s with
    store := Function.update s.store rootLength
      { s.store rootLength with keylen := key.length % 65536, vallen := value.length % 65536, payload := key ++ value }
    first := rootLength, last := rootLength, lastInserted := rootLength }

/-- The bump-pointer offset of the next append (listmap.go line 168):
just past the record at `lastInserted`, using `uint16` addition of its
two length fields. -/
def bumpOffset (s : LM) : Nat :=
  s.lastInserted + recordLength +
    ((readRec s s.lastInserted).keylen + (readRec s s.lastInserted).vallen) % 65536

/-- The record `Set` appends at `bumpOffset` (listmap.go lines 170-173):
`keylen`, `vallen` and the payload are written, the other header bytes
keep whatever the memory held. -/
def appendRec (s : LM) (key value : List Nat) : Rec :=
  { s.store (bumpOffset s) with keylen := key.length % 65536, vallen := value.length % 65536, payload := key ++ value }

/-- State after the unconditional append (listmap.go lines 168-173). -/
def appendState (s : LM) (key value : List Nat) : LM :=
  { s with
    store := Function.update s.store (bumpOffset s) (appendRec s key value)
    lastInserted := bumpOffset s }

/-- The tail fast path's writes (listmap.go lines 179-181), in source
order: `cursor.r.next = currentIndex`, `r.prev = l.root.last`,
`l.root.last = cursor.r.next`, with the cursor seeked at the old
`root.last`. -/
def setTail (s2 : LM) (ci : Nat) : LM :=
  let lastIdx := s2.last
  let s3 := writeNext s2 lastIdx ci
  let s4 := writePrev s3 ci s3.last
  { s4 with last := (readRec s4 lastIdx).next }

/-- The head fast path's writes (listmap.go lines 189-191), in source
order: `cursor.r.prev = currentIndex`, `r.next = l.root.first`,
`l.root.first = cursor.r.prev`, with the cursor seeked at the old
`root.first`. -/
def setHead (s2 : LM) (ci : Nat) : LM :=
  let firstIdx := s2.first
  let s3 := writePrev s2 firstIdx ci
  let s4 := writeNext s3 ci s3.first
  { s4 with first := (readRec s4 firstIdx).prev }

/-- `Set` after the capacity check (listmap.go lines 152-222): the
first-record branch, the unconditional append at the bump pointer, the
tail and head fast paths, then the general path. -/
def setMain (s : LM) (key value : List Nat) : LM × SetRes :=
  if s.lastInserted = 0 then
    (firstState s key value, .ok)
  else
    let ci := bumpOffset s
    let s2 := appendState s key value
    let lastRec := readRec s2 s2.last
    if bcmp lastRec.key key = .lt ∨ (bcmp lastRec.key key = .eq ∧ lastRec.removed = true) then
      (setTail s2 ci, .ok)
    else
      let firstRec := readRec s2 s2.first
      if bcmp firstRec.key key = .gt ∨ (bcmp firstRec.key key = .eq ∧ firstRec.removed = true) then
        (setHead s2 ci, .ok)
      else
        walkGen s2.size s2 ci key s2.last

/-- `Set` (listmap.go lines 132-223).  `growOk` tells whether the
`Truncate` system call succeeds when growth is needed; on failure the
source remaps the original length, leaving every root field, record and
the capacity unchanged, and returns `ErrFileTruncateError`. -/
def setOp (growOk : Bool) (s : LM) (key value : List Nat) : LM × SetRes :=
  if s.lastInserted + constTruncateResize > s.size then
    if growOk then
      setMain { s with size := s.size + constTruncateResize } key value
    else (s, .growthFailed)
  else setMain s key value

/-- The forward walk of `Get` (listmap.go lines 226-240) from cursor
position `i`. -/
def getAux : Nat → LM → List Nat → Nat → GetRes
  | 0, _, _, _ => .fuelOut
  | fuel + 1, s, key, i =>
    let r := readRec s i
    if bcmp r.key key = .gt then .notFound
    else if bcmp r.key key = .eq ∧ r.removed = false then .found r.value
    else if r.next = 0 then .notFound
    else getAux fuel s key r.next

/-- `Get`: walk forward from `first`. -/
def getOp (s : LM) (key : List Nat) : GetRes := getAux s.size s key s.first

/-- The forward walk of `Remove` (listmap.go lines 243-254) from cursor
position `i`; `none` marks a non-terminating walk. -/
def removeAux : Nat → LM → List Nat → Nat → Option LM
  | 0, _, _, _ => none
  | fuel + 1, s, key, i =>
    let r := readRec s i
    if bcmp r.key key = .gt then some s
    else
      let s1 := if bcmp r.key key = .eq then writeRemoved s i else s
      let ni := (readRec s1 i).next
      if ni = 0 then some s1 else removeAux fuel s1 key ni

/-- `Remove`: walk forward from `first`, tombstoning matches. -/
def removeOp (s : LM) (key : List Nat) : Option LM := removeAux s.size s key s.first

/-! ### Reachable states -/

/-- Size regime under which the `uint16` length fields cannot wrap and
every record fits in half a growth chunk (compare the capacity check,
which guarantees `constTruncateResize` bytes past `lastInserted`). -/
def KVAdm (key value : List Nat) : Prop :=
  recordLength + key.length + value.length ≤ 32768

/-- States reachable from a fresh map by sequential `Set` and `Remove`
calls whose arguments stay in the faithful regime: sizes bounded by
`KVAdm`, and no `Remove` of the empty key on the empty map (which would
write the tombstone byte into the root). -/
inductive Reach : LM → Prop where
  | init : Reach initLM
  | set {s : LM} (g : Bool) {k v : List Nat} :
      Reach s → KVAdm k v → Reach (setOp g s k v).1
  | rem {s s' : LM} {k : List Nat} :
      Reach s → (s.first ≠ 0 ∨ k ≠ []) → removeOp s k = some s' → Reach s'

/-! ### Chains and well-formedness -/

/-- `linksFrom s a c`: from the record at offset `a`, the chain continues
through the offsets in `c` (each a real record, forward and backward
links matching) and ends at `s.last`. -/
def linksFrom (s : LM) : Nat → List Nat → Bool
  | a, [] => ((s.store a).next == 0) && (s.last == a)
  | a, b :: r =>
    decide (rootLength ≤ b) && ((s.store a).next == b) && ((s.store b).prev == a)
      && linksFrom s b r

/-- `links s c`: `c` is the list of record offsets of the chain from
`s.first` to `s.last`. -/
def links (s : LM) : List Nat → Bool
  | [] => (s.first == 0) && (s.last == 0)
  | a :: r =>
    decide (rootLength ≤ a) && (s.first == a) && ((s.store a).prev == 0)
      && linksFrom s a r

/-- Non-decreasing lexicographic order of a list of keys. -/
def keysSorted : List (List Nat) → Bool
  | [] => true
  | [_] => true
  | a :: b :: r => (bcmp a b != Ordering.gt) && keysSorted (b :: r)

/-- The keys along a chain. -/
def chainKeys (s : LM) (c : List Nat) : List (List Nat) :=
  c.map fun o => (s.store o).key

/-- A record whose stored lengths describe its payload exactly and whose
total size fits in half a growth chunk. -/
def WellSized (r : Rec) : Prop :=
  r.payload.length = r.keylen + r.vallen ∧ recSize r ≤ 32768

/-- The chain `c` is a well-formed description of `s`'s list. -/
structure ChainOk (s : LM) (c : List Nat) : Prop where
  linked : links s c = true
  nodup : c.Nodup
  ub : ∀ o ∈ c, o ≤ s.lastInserted
  sized : ∀ o ∈ c, WellSized (s.store o)
  sorted : keysSorted (chainKeys s c) = true

/-- Well-formedness of a map state. -/
structure WF (s : LM) : Prop where
  chain : ∃ c, ChainOk s c
  rootSize : (s.lastInserted = 0 ∧ s.first = 0 ∧ s.last = 0 ∧ s.size = rootLength) ∨
    (rootLength ≤ s.lastInserted ∧ rootLength ≤ s.first ∧
      WellSized (s.store s.lastInserted) ∧
      s.lastInserted + recSize (s.store s.lastInserted) ≤ s.size)
  fresh : ∀ j, s.lastInserted < j → s.store j = emptyRec

/-! ### Order lemmas for `bcmp` -/

theorem bcmp_refl (a : List Nat) : bcmp a a = .eq := by
  induction a with
  | nil => rfl
  | cons x xs ih => simp [bcmp, ih]

theorem bcmp_eq_iff {a b : List Nat} : bcmp a b = .eq ↔ a = b := by
  induction a generalizing b with
  | nil => cases b <;> simp [bcmp]
  | cons x xs ih =>
    cases b with
    | nil => simp [bcmp]
    | cons y ys =>
      rcases Nat.lt_trichotomy x y with h | h | h
      · simp only [bcmp, if_pos h]
        constructor
        · intro hc; cases hc
        · intro hc
          exact absurd (List.cons.injEq .. ▸ hc).1 (Nat.ne_of_lt h)
      · subst h
        simp [bcmp, Nat.lt_irrefl, ih]
      · simp only [bcmp, if_neg (Nat.not_lt.2 (Nat.le_of_lt h)), if_pos h]
        constructor
        · intro hc; cases hc
        · intro hc
          exact absurd (List.cons.injEq .. ▸ hc).1 (Nat.ne_of_gt h)

theorem bcmp_swap (a b : List Nat) : bcmp b a = (bcmp a b).swap := by
  induction a generalizing b with
  | nil => cases b <;> rfl
  | cons x xs ih =>
    cases b with
    | nil => rfl
    | cons y ys =>
      rcases Nat.lt_trichotomy x y with h | h | h
      · simp [bcmp, h, Nat.not_lt.2 (Nat.le_of_lt h), Ordering.swap]
      · subst h; simp [bcmp, Nat.lt_irrefl, ih]
      · simp [bcmp, h, Nat.not_lt.2 (Nat.le_of_lt h), Ordering.swap]

theorem bcmp_gt_iff_lt {a b : List Nat} : bcmp a b = .gt ↔ bcmp b a = .lt := by
  rw [bcmp_swap a b]
  cases bcmp a b <;> simp [Ordering.swap]

theorem bcmp_lt_trans {a b c : List Nat} :
    bcmp a b = .lt → bcmp b c = .lt → bcmp a c = .lt := by
  induction a generalizing b c with
  | nil =>
    intro h1 h2
    cases c with
    | nil =>
      cases b with
      | nil => cases h1
      | cons y ys => cases h2
    | cons z zs => rfl
  | cons x xs ih =>
    intro h1 h2
    cases b with
    | nil => cases h1
    | cons y ys =>
      cases c with
      | nil => cases h2
      | cons z zs =>
        simp only [bcmp] at h1 h2 ⊢
        rcases Nat.lt_trichotomy x y with hxy | hxy | hxy
        · rcases Nat.lt_trichotomy y z with hyz | hyz | hyz
          · rw [if_pos (Nat.lt_trans hxy hyz)]
          · subst hyz; rw [if_pos hxy]
          · rw [if_neg (Nat.not_lt.2 (Nat.le_of_lt hyz)), if_pos hyz] at h2
            cases h2
        · subst hxy
          rw [if_neg (Nat.lt_irrefl x)] at h1
          rw [if_neg (Nat.lt_irrefl x)] at h1
          rcases Nat.lt_trichotomy x z with hxz | hxz | hxz
          · rw [if_pos hxz]
          · subst hxz
            rw [if_neg (Nat.lt_irrefl x), if_neg (Nat.lt_irrefl x)] at h2 ⊢
            exact ih h1 h2
          · rw [if_neg (Nat.not_lt.2 (Nat.le_of_lt hxz)), if_pos hxz] at h2
            cases h2
        · rw [if_neg (Nat.not_lt.2 (Nat.le_of_lt hxy)), if_pos hxy] at h1
          cases h1

theorem bcmp_ne_gt_iff {a b : List Nat} :
    bcmp a b ≠ .gt ↔ bcmp a b = .lt ∨ a = b := by
  rcases h : bcmp a b with _ | _ | _ <;> simp_all [← bcmp_eq_iff]

theorem bcmp_le_trans {a b c : List Nat} :
    bcmp a b ≠ .gt → bcmp b c ≠ .gt → bcmp a c ≠ .gt := by
  rw [bcmp_ne_gt_iff, bcmp_ne_gt_iff, bcmp_ne_gt_iff]
  rintro (h1 | rfl) (h2 | rfl)
  · exact Or.inl (bcmp_lt_trans h1 h2)
  · exact Or.inl h1
  · exact Or.inl h2
  · exact Or.inr rfl

theorem bcmp_lt_of_lt_of_le {a b c : List Nat} :
    bcmp a b = .lt → bcmp b c ≠ .gt → bcmp a c = .lt := by
  rw [bcmp_ne_gt_iff]
  rintro h1 (h2 | rfl)
  · exact bcmp_lt_trans h1 h2
  · exact h1

theorem bcmp_lt_of_le_of_lt {a b c : List Nat} :
    bcmp a b ≠ .gt → bcmp b c = .lt → bcmp a c = .lt := by
  rw [bcmp_ne_gt_iff]
  rintro (h1 | rfl) h2
  · exact bcmp_lt_trans h1 h2
  · exact h2

theorem bcmp_lt_ne {a b : List Nat} (h : bcmp a b = .lt) : a ≠ b := by
  intro h'
  subst h'
  rw [bcmp_refl] at h
  cases h

/-! ### Frame lemmas for the record heap -/

theorem readRec_pos {s : LM} {i : Nat} (h : i ≠ 0) : readRec s i = s.store i :=
  if_neg h

@[simp] theorem writeNext_first (s : LM) (i v : Nat) :
    (writeNext s i v).first = s.first := by
  unfold writeNext; split <;> rfl

@[simp] theorem writeNext_lastInserted (s : LM) (i v : Nat) :
    (writeNext s i v).lastInserted = s.lastInserted := by
  unfold writeNext; split <;> rfl

@[simp] theorem writeNext_size (s : LM) (i v : Nat) :
    (writeNext s i v).size = s.size := by
  unfold writeNext; split <;> rfl

theorem writeNext_last_pos {s : LM} {i : Nat} (v : Nat) (h : i ≠ 0) :
    (writeNext s i v).last = s.last := by
  rw [writeNext, if_neg h]

theorem writeNext_store {s : LM} {i : Nat} (v : Nat) (h : i ≠ 0) (j : Nat) :
    (writeNext s i v).store j =
      if j = i then { s.store i with next := v } else s.store j := by
  rw [writeNext, if_neg h]
  simp [Function.update_apply]

@[simp] theorem writePrev_last (s : LM) (i v : Nat) :
    (writePrev s i v).last = s.last := by
  unfold writePrev; split <;> rfl

@[simp] theorem writePrev_lastInserted (s : LM) (i v : Nat) :
    (writePrev s i v).lastInserted = s.lastInserted := by
  unfold writePrev; split <;> rfl

@[simp] theorem writePrev_size (s : LM) (i v : Nat) :
    (writePrev s i v).size = s.size := by
  unfold writePrev; split <;> rfl

theorem writePrev_first_pos {s : LM} {i : Nat} (v : Nat) (h : i ≠ 0) :
    (writePrev s i v).first = s.first := by
  rw [writePrev, if_neg h]

theorem writePrev_store {s : LM} {i : Nat} (v : Nat) (h : i ≠ 0) (j : Nat) :
    (writePrev s i v).store j =
      if j = i then { s.store i with prev := v } else s.store j := by
  rw [writePrev, if_neg h]
  simp [Function.update_apply]

@[simp] theorem writeRemoved_first (s : LM) (i : Nat) :
    (writeRemoved s i).first = s.first := by
  unfold writeRemoved; split <;> rfl

@[simp] theorem writeRemoved_last (s : LM) (i : Nat) :
    (writeRemoved s i).last = s.last := by
  unfold writeRemoved; split <;> rfl

@[simp] theorem writeRemoved_size (s : LM) (i : Nat) :
    (writeRemoved s i).size = s.size := by
  unfold writeRemoved; split <;> rfl

theorem writeRemoved_lastInserted_pos {s : LM} {i : Nat} (h : i ≠ 0) :
    (writeRemoved s i).lastInserted = s.lastInserted := by
  rw [writeRemoved, if_neg h]

theorem writeRemoved_store {s : LM} {i : Nat} (h : i ≠ 0) (j : Nat) :
    (writeRemoved s i).store j =
      if j = i then { s.store i with removed := true } else s.store j := by
  rw [writeRemoved, if_neg h]
  simp [Function.update_apply]

/-! ### Basic lemmas about chains -/

theorem linksFrom_nil_iff {s : LM} {a : Nat} :
    linksFrom s a [] = true ↔ (s.store a).next = 0 ∧ s.last = a := by
  simp [linksFrom]

theorem linksFrom_cons_iff {s : LM} {a b : Nat} {r : List Nat} :
    linksFrom s a (b :: r) = true ↔
      rootLength ≤ b ∧ (s.store a).next = b ∧ (s.store b).prev = a ∧
        linksFrom s b r = true := by
  simp [linksFrom, and_assoc]

theorem links_nil_iff {s : LM} :
    links s [] = true ↔ s.first = 0 ∧ s.last = 0 := by
  simp [links]

theorem links_cons_iff {s : LM} {a : Nat} {r : List Nat} :
    links s (a :: r) = true ↔
      rootLength ≤ a ∧ s.first = a ∧ (s.store a).prev = 0 ∧
        linksFrom s a r = true := by
  simp [links, and_assoc]

theorem linksFrom_lb {s : LM} :
    ∀ {a : Nat} {r : List Nat}, linksFrom s a r = true → ∀ o ∈ r, rootLength ≤ o := by
  intro a r
  induction r generalizing a with
  | nil => intro _ o ho; cases ho
  | cons b r ih =>
    intro h o ho
    rw [linksFrom_cons_iff] at h
    rcases List.mem_cons.1 ho with rfl | ho
    · exact h.1
    · exact ih h.2.2.2 o ho

theorem links_lb {s : LM} {c : List Nat} (h : links s c = true) :
    ∀ o ∈ c, rootLength ≤ o := by
  cases c with
  | nil => intro o ho; cases ho
  | cons a r =>
    rw [links_cons_iff] at h
    intro o ho
    rcases List.mem_cons.1 ho with rfl | ho
    · exact h.1
    · exact linksFrom_lb h.2.2.2 o ho

/-- The offset of the final record of a chain that starts at `a` and
continues through `r`. -/
def chainEnd : Nat → List Nat → Nat
  | a, [] => a
  | _, b :: r => chainEnd b r

@[simp] theorem chainEnd_nil (a : Nat) : chainEnd a [] = a := rfl

@[simp] theorem chainEnd_cons (a b : Nat) (r : List Nat) :
    chainEnd a (b :: r) = chainEnd b r := rfl

theorem linksFrom_last {s : LM} :
    ∀ {a : Nat} {r : List Nat}, linksFrom s a r = true →
      s.last = chainEnd a r ∧ (s.store (chainEnd a r)).next = 0 := by
  intro a r
  induction r generalizing a with
  | nil =>
    intro h
    rw [linksFrom_nil_iff] at h
    exact ⟨by simpa using h.2, by simpa using h.1⟩
  | cons b r ih =>
    intro h
    rw [linksFrom_cons_iff] at h
    exact ih h.2.2.2

theorem linksFrom_congr {s t : LM} (hlast : t.last = s.last) :
    ∀ {a : Nat} {r : List Nat},
      (∀ o ∈ a :: r, (t.store o).next = (s.store o).next) →
      (∀ o ∈ r, (t.store o).prev = (s.store o).prev) →
      linksFrom s a r = true → linksFrom t a r = true := by
  intro a r
  induction r generalizing a with
  | nil =>
    intro hn _ h
    rw [linksFrom_nil_iff] at h ⊢
    exact ⟨(hn a (List.mem_cons_self a [])).trans h.1, hlast.trans h.2⟩
  | cons b r ih =>
    intro hn hp h
    rw [linksFrom_cons_iff] at h ⊢
    refine ⟨h.1, (hn a (List.mem_cons_self ..)).trans h.2.1,
      (hp b (List.mem_cons_self ..)).trans h.2.2.1, ?_⟩
    exact ih (fun o ho => hn o (List.mem_cons_of_mem _ ho))
      (fun o ho => hp o (List.mem_cons_of_mem _ ho)) h.2.2.2

/-! ### Lemmas about `keysSorted` -/

theorem keysSorted_cons_cons_iff {a b : List Nat} {l : List (List Nat)} :
    keysSorted (a :: b :: l) = true ↔
      bcmp a b ≠ .gt ∧ keysSorted (b :: l) = true := by
  show ((bcmp a b != Ordering.gt) && keysSorted (b :: l)) = true ↔ _
  cases hc : bcmp a b <;> simp [hc]
  · intro; rfl
  · intro; rfl
  · intro h; cases h

theorem keysSorted_single (a : List Nat) : keysSorted [a] = true := rfl

theorem keysSorted_append {l₁ l₂ : List (List Nat)} :
    keysSorted (l₁ ++ l₂) = true ↔
      keysSorted l₁ = true ∧ keysSorted l₂ = true ∧
        ∀ x ∈ l₁.getLast?, ∀ y ∈ l₂.head?, bcmp x y ≠ .gt := by
  induction l₁ with
  | nil => simp [keysSorted]
  | cons a l₁ ih =>
    cases l₁ with
    | nil =>
      cases l₂ with
      | nil => simp [keysSorted]
      | cons b l₂ =>
        simp only [List.nil_append, List.singleton_append, keysSorted_cons_cons_iff]
        simp [keysSorted, and_comm, bne_iff_ne]
    | cons a' l₁ =>
      simp only [List.cons_append, keysSorted_cons_cons_iff] at *
      rw [ih]
      simp only [List.getLast?_cons_cons]
      constructor
      · rintro ⟨h1, h2, h3, h4⟩
        exact ⟨⟨h1, h2⟩, h3, h4⟩
      · rintro ⟨⟨h1, h2⟩, h3, h4⟩
        exact ⟨h1, h2, h3, h4⟩

theorem keysSorted_all_le_last {l : List (List Nat)} {x : List Nat} :
    keysSorted (l ++ [x]) = true → ∀ y ∈ l, bcmp y x ≠ .gt := by
  induction l with
  | nil => intro _ y hy; cases hy
  | cons a l ih =>
    intro h y hy
    simp only [List.cons_append] at h
    cases l with
    | nil =>
      rcases List.mem_singleton.1 hy with rfl
      exact (keysSorted_cons_cons_iff.1 h).1
    | cons b l' =>
      have h1 := (keysSorted_cons_cons_iff.1 h).1
      have htail : keysSorted ((b :: l') ++ [x]) = true := by
        simpa only [List.cons_append] using (keysSorted_cons_cons_iff.1 h).2
      rcases List.mem_cons.1 hy with rfl | hy
      · exact bcmp_le_trans h1 (ih htail b (List.mem_cons_self ..))
      · exact ih htail y hy

@[simp] theorem recordLength_eq : recordLength = 24 := rfl

@[simp] theorem rootLength_eq : rootLength = 24 := rfl

theorem nodup_bounded_length {c : List Nat} {N : Nat} (hnd : c.Nodup)
    (hlb : ∀ o ∈ c, rootLength ≤ o) (hub : ∀ o ∈ c, o ≤ N) :
    c.length ≤ N := by
  classical
  have hsub : c.toFinset ⊆ Finset.Icc rootLength N := by
    intro o ho
    have ho' := List.mem_toFinset.1 ho
    exact Finset.mem_Icc.2 ⟨hlb o ho', hub o ho'⟩
  have h1 : c.toFinset.card = c.length := List.toFinset_card_of_nodup hnd
  have h2 := Finset.card_le_card hsub
  rw [h1, Nat.card_Icc] at h2
  simp only [rootLength_eq] at h2
  omega

/-- The walk that claim C2 describes, over the abstract list of records
of the chain: return `NotFound` at the first strictly greater key or at
the end of the list; return the value of the first record whose key
matches and whose tombstone is clear; walk past everything else. -/
def specGet : List Rec → List Nat → GetRes
  | [], _ => .notFound
  | r :: rest, key =>
    if bcmp r.key key = .gt then .notFound
    else if bcmp r.key key = .eq ∧ r.removed = false then .found r.value
    else specGet rest key

theorem getAux_chain {s : LM} {key : List Nat} :
    ∀ (r : List Nat) (a : Nat) (fuel : Nat),
      rootLength ≤ a → linksFrom s a r = true → r.length < fuel →
      getAux fuel s key a = specGet ((a :: r).map s.store) key := by
  intro r
  induction r with
  | nil =>
    intro a fuel ha h hlen
    have ha0 : a ≠ 0 := by simp at ha; omega
    cases fuel with
    | zero => omega
    | succ f =>
      rw [linksFrom_nil_iff] at h
      simp only [getAux, readRec_pos ha0, List.map_cons, List.map_nil, specGet, h.1]
      split
      · rfl
      · split
        · rfl
        · rfl
  | cons b r ih =>
    intro a fuel ha h hlen
    have ha0 : a ≠ 0 := by simp at ha; omega
    cases fuel with
    | zero => omega
    | succ f =>
      rw [linksFrom_cons_iff] at h
      obtain ⟨hb, hnext, hprev, hr⟩ := h
      have hb0 : b ≠ 0 := by simp at hb; omega
      have hrec : getAux f s key b = specGet ((b :: r).map s.store) key := by
        refine ih b f hb hr ?_
        simp at hlen
        omega
      simp only [getAux, readRec_pos ha0, List.map_cons, specGet, hnext, hb0,
        if_neg hb0]
      split
      · rfl
      · split
        · rfl
        · exact hrec

theorem Rec.key_def (r : Rec) : r.key = r.payload.take r.keylen := rfl

theorem Rec.value_def (r : Rec) : r.value = (r.payload.drop r.keylen).take r.vallen := rfl

@[simp] theorem Rec.key_mark (r : Rec) : Rec.key { r with removed := true } = r.key := rfl

@[simp] theorem Rec.value_mark (r : Rec) : Rec.value { r with removed := true } = r.value := rfl

theorem writeRemoved_store_next {s : LM} {i : Nat} (h : i ≠ 0) (j : Nat) :
    ((writeRemoved s i).store j).next = (s.store j).next := by
  rw [writeRemoved_store h]
  split <;> simp_all

theorem writeRemoved_store_prev {s : LM} {i : Nat} (h : i ≠ 0) (j : Nat) :
    ((writeRemoved s i).store j).prev = (s.store j).prev := by
  rw [writeRemoved_store h]
  split <;> simp_all

theorem writeRemoved_store_key {s : LM} {i : Nat} (h : i ≠ 0) (j : Nat) :
    ((writeRemoved s i).store j).key = (s.store j).key := by
  rw [writeRemoved_store h]
  split <;> simp_all

theorem keysSorted_all_ge_head {x : List Nat} : ∀ {l : List (List Nat)},
    keysSorted (x :: l) = true → ∀ y ∈ l, bcmp x y ≠ .gt := by
  intro l
  induction l with
  | nil => intro _ y hy; cases hy
  | cons b l ih =>
    intro h y hy
    have h1 := (keysSorted_cons_cons_iff.1 h).1
    rcases List.mem_cons.1 hy with rfl | hy
    · exact h1
    · have h2 : keysSorted (x :: l) = true := by
        cases l with
        | nil => rfl
        | cons c l' =>
          have h3 := (keysSorted_cons_cons_iff.1 h).2
          have h4 := (keysSorted_cons_cons_iff.1 h3).1
          exact keysSorted_cons_cons_iff.2 ⟨bcmp_le_trans h1 h4,
            (keysSorted_cons_cons_iff.1 h3).2⟩
      exact ih h2 y hy

theorem keysSorted_tail {x : List Nat} {l : List (List Nat)}
    (h : keysSorted (x :: l) = true) : keysSorted l = true := by
  cases l with
  | nil => rfl
  | cons b l' => exact (keysSorted_cons_cons_iff.1 h).2

theorem removeAux_succ (f : Nat) (s : LM) (key : List Nat) (a : Nat) :
    removeAux (f + 1) s key a =
      if bcmp (readRec s a).key key = .gt then some s
      else
        if (readRec (if bcmp (readRec s a).key key = .eq then writeRemoved s a else s) a).next = 0
        then some (if bcmp (readRec s a).key key = .eq then writeRemoved s a else s)
        else removeAux f (if bcmp (readRec s a).key key = .eq then writeRemoved s a else s) key
          (readRec (if bcmp (readRec s a).key key = .eq then writeRemoved s a else s) a).next := rfl

theorem removeAux_chain {key : List Nat} :
    ∀ (r : List Nat) (a : Nat) (fuel : Nat) (s : LM),
      rootLength ≤ a → linksFrom s a r = true →
      keysSorted ((a :: r).map fun o => (s.store o).key) = true →
      r.length < fuel →
      ∃ s', removeAux fuel s key a = some s' ∧
        s'.first = s.first ∧ s'.last = s.last ∧
        s'.lastInserted = s.lastInserted ∧ s'.size = s.size ∧
        ∀ j, s'.store j =
          if j ∈ a :: r ∧ bcmp (s.store j).key key = .eq
          then { s.store j with removed := true } else s.store j := by
  intro r
  induction r with
  | nil =>
    intro a fuel s ha h _ hlen
    have ha0 : a ≠ 0 := by simp at ha; omega
    cases fuel with
    | zero => omega
    | succ f =>
      rw [linksFrom_nil_iff] at h
      rcases hc : bcmp ((s.store a).key) key with _ | _ | _
      · -- lt: no mark, stop at end of chain
        refine ⟨s, ?_, rfl, rfl, rfl, rfl, ?_⟩
        · rw [removeAux_succ]
          simp [readRec_pos ha0, hc, h.1]
        · intro j
          rw [if_neg]
          rintro ⟨hj1, hj2⟩
          rcases List.mem_singleton.1 hj1 with rfl
          rw [hc] at hj2
          cases hj2
      · -- eq: mark a, stop
        refine ⟨writeRemoved s a, ?_, by simp, by simp,
          writeRemoved_lastInserted_pos ha0, by simp, ?_⟩
        · rw [removeAux_succ]
          simp [readRec_pos ha0, hc, writeRemoved_store_next ha0, h.1]
        · intro j
          rw [writeRemoved_store ha0]
          by_cases hja : j = a
          · subst hja
            rw [if_pos rfl, if_pos ⟨List.mem_singleton.2 rfl, hc⟩]
          · rw [if_neg hja, if_neg]
            rintro ⟨hj1, _⟩
            exact hja (List.mem_singleton.1 hj1)
      · -- gt: stop immediately, no writes
        refine ⟨s, ?_, rfl, rfl, rfl, rfl, ?_⟩
        · rw [removeAux_succ]
          simp [readRec_pos ha0, hc]
        · intro j
          rw [if_neg]
          rintro ⟨hj1, hj2⟩
          rcases List.mem_singleton.1 hj1 with rfl
          rw [hc] at hj2
          cases hj2
  | cons b r ih =>
    intro a fuel s ha h hsort hlen
    have ha0 : a ≠ 0 := by simp at ha; omega
    cases fuel with
    | zero => omega
    | succ f =>
      rw [linksFrom_cons_iff] at h
      obtain ⟨hb, hnext, hprev, hr⟩ := h
      have hb0 : b ≠ 0 := by simp at hb; omega
      rcases hc : bcmp ((s.store a).key) key with _ | _ | _
      · -- lt at a: no mark here, continue at b
        have hsort1 : keysSorted ((b :: r).map fun o => (s.store o).key) = true := by
          simpa using keysSorted_tail (by simpa using hsort)
        obtain ⟨s', hs', hf, hl, hli, hsz, hst⟩ :=
          ih b f s hb hr hsort1 (by simp at hlen; omega)
        refine ⟨s', ?_, hf, hl, hli, hsz, ?_⟩
        · rw [removeAux_succ]
          simp only [readRec_pos ha0, hc]
          simp [hnext, hb0]
          exact hs'
        · intro j
          rw [hst j]
          by_cases hja : j = a
          · subst hja
            rw [if_neg, if_neg]
            · rintro ⟨_, hj2⟩
              rw [hc] at hj2
              cases hj2
            · rintro ⟨_, hj2⟩
              rw [hc] at hj2
              cases hj2
          · by_cases hjm : j ∈ b :: r
            · by_cases hje : bcmp ((s.store j).key) key = .eq
              · rw [if_pos ⟨hjm, hje⟩, if_pos ⟨List.mem_cons_of_mem _ hjm, hje⟩]
              · rw [if_neg, if_neg]
                · rintro ⟨_, hj2⟩; exact hje hj2
                · rintro ⟨_, hj2⟩; exact hje hj2
            · rw [if_neg, if_neg]
              · rintro ⟨hj1, _⟩
                rcases List.mem_cons.1 hj1 with h' | h'
                · exact hja h'
                · exact hjm h'
              · rintro ⟨hj1, _⟩
                exact hjm hj1
      · -- eq at a: mark a, continue at b on the written state
        have hkeys : ∀ o, ((writeRemoved s a).store o).key = (s.store o).key :=
          writeRemoved_store_key ha0
        have hr1 : linksFrom (writeRemoved s a) b r = true := by
          refine linksFrom_congr (by simp) ?_ ?_ hr
          · intro o _; exact writeRemoved_store_next ha0 o
          · intro o _; exact writeRemoved_store_prev ha0 o
        have hsort1 :
            keysSorted ((b :: r).map fun o => ((writeRemoved s a).store o).key) = true := by
          have hmeq : ((b :: r).map fun o => ((writeRemoved s a).store o).key)
              = (b :: r).map fun o => (s.store o).key := by
            simp [hkeys]
          rw [hmeq]
          simpa using keysSorted_tail (by simpa using hsort)
        obtain ⟨s', hs', hf, hl, hli, hsz, hst⟩ :=
          ih b f (writeRemoved s a) hb hr1 hsort1 (by simp at hlen; omega)
        refine ⟨s', ?_, by simpa using hf, by simpa using hl,
          by rw [hli, writeRemoved_lastInserted_pos ha0], by simpa using hsz, ?_⟩
        · rw [removeAux_succ]
          simp only [readRec_pos ha0, hc]
          simp [readRec_pos ha0, writeRemoved_store_next ha0, hnext, hb0]
          exact hs'
        · intro j
          rw [hst j]
          by_cases hja : j = a
          · subst hja
            have hm : (writeRemoved s j).store j = { s.store j with removed := true } := by
              rw [writeRemoved_store ha0, if_pos rfl]
            rw [hm]
            by_cases hcond : j ∈ b :: r ∧
                bcmp (Rec.key { s.store j with removed := true }) key = .eq
            · rw [if_pos hcond, if_pos ⟨List.mem_cons_self j (b :: r), hc⟩]
            · rw [if_neg hcond, if_pos ⟨List.mem_cons_self j (b :: r), hc⟩]
          · rw [hkeys]
            by_cases hjm : j ∈ b :: r
            · by_cases hje : bcmp ((s.store j).key) key = .eq
              · rw [if_pos ⟨hjm, hje⟩, if_pos ⟨List.mem_cons_of_mem _ hjm, hje⟩,
                  writeRemoved_store ha0, if_neg hja]
              · rw [if_neg, writeRemoved_store ha0, if_neg hja, if_neg]
                · rintro ⟨_, hj2⟩; exact hje hj2
                · rintro ⟨_, hj2⟩; exact hje hj2
            · rw [if_neg, writeRemoved_store ha0, if_neg hja, if_neg]
              · rintro ⟨hj1, _⟩
                rcases List.mem_cons.1 hj1 with h' | h'
                · exact hja h'
                · exact hjm h'
              · rintro ⟨hj1, _⟩
                exact hjm hj1
      · -- gt at a: stop; sortedness rules out matches anywhere
        refine ⟨s, ?_, rfl, rfl, rfl, rfl, ?_⟩
        · rw [removeAux_succ]
          simp [readRec_pos ha0, hc]
        · intro j
          rw [if_neg]
          rintro ⟨hj1, hj2⟩
          have hgt : bcmp ((s.store j).key) key = .gt := by
            rcases List.mem_cons.1 hj1 with rfl | hj1
            · exact hc
            · have hmem : (s.store j).key ∈
                  (s.store b).key :: (r.map fun o => (s.store o).key) := by
                simpa using List.mem_map_of_mem (fun o => (s.store o).key) hj1
              have hsort' : keysSorted ((s.store a).key ::
                  (s.store b).key :: (r.map fun o => (s.store o).key)) = true := by
                simpa using hsort
              have hha := keysSorted_all_ge_head hsort' ((s.store j).key) hmem
              rw [bcmp_gt_iff_lt] at hc ⊢
              exact bcmp_lt_of_lt_of_le hc hha
          rw [hgt] at hj2
          cases hj2

theorem readRec_zero (s : LM) : readRec s 0 = rootRec s := if_pos rfl

theorem bcmp_nil_cons (a : Nat) (l : List Nat) : bcmp [] (a :: l) = .lt := rfl

@[simp] theorem rootRec_key (s : LM) : (rootRec s).key = [] := by
  simp [rootRec, Rec.key_def]

theorem recSize_mark (r : Rec) : recSize { r with removed := true } = recSize r := rfl

theorem links_congr {s t : LM} {c : List Nat} (hf : t.first = s.first)
    (hl : t.last = s.last)
    (hnext : ∀ o ∈ c, (t.store o).next = (s.store o).next)
    (hprev : ∀ o ∈ c, (t.store o).prev = (s.store o).prev) :
    links s c = true → links t c = true := by
  cases c with
  | nil =>
    rw [links_nil_iff, links_nil_iff]
    rintro ⟨h1, h2⟩
    exact ⟨hf.trans h1, hl.trans h2⟩
  | cons a r =>
    rw [links_cons_iff, links_cons_iff]
    rintro ⟨h1, h2, h3, h4⟩
    refine ⟨h1, hf.trans h2, (hprev a (List.mem_cons_self ..)).trans h3, ?_⟩
    exact linksFrom_congr hl hnext
      (fun o ho => hprev o (List.mem_cons_of_mem _ ho)) h4

theorem removeOp_spec {s : LM} {c : List Nat} {k : List Nat}
    (hC : ChainOk s c) (hsz : s.lastInserted < s.size) (h0 : 0 < s.size)
    (hadm : s.first ≠ 0 ∨ k ≠ []) :
    ∃ s', removeOp s k = some s' ∧
      s'.first = s.first ∧ s'.last = s.last ∧ s'.lastInserted = s.lastInserted ∧
      s'.size = s.size ∧
      ∀ j, s'.store j = if j ∈ c ∧ bcmp (s.store j).key k = .eq
        then { s.store j with removed := true } else s.store j := by
  cases c with
  | nil =>
    obtain ⟨hfi, hla⟩ := links_nil_iff.1 hC.linked
    have hk : k ≠ [] := by
      rcases hadm with h | h
      · exact absurd hfi h
      · exact h
    obtain ⟨m, hm⟩ : ∃ m, s.size = m + 1 := ⟨s.size - 1, by omega⟩
    refine ⟨s, ?_, rfl, rfl, rfl, rfl, ?_⟩
    · rw [removeOp, hfi, hm, removeAux_succ, readRec_zero]
      cases k with
      | nil => exact absurd rfl hk
      | cons k0 ks =>
        rw [rootRec_key, bcmp_nil_cons]
        simp [readRec_zero, rootRec, hla]
    · intro j
      rw [if_neg]
      rintro ⟨hj, _⟩
      cases hj
  | cons a r =>
    obtain ⟨ha, hfi, hprev, hfrom⟩ := links_cons_iff.1 hC.linked
    have hlen : (a :: r).length ≤ s.lastInserted :=
      nodup_bounded_length hC.nodup (links_lb hC.linked) hC.ub
    have hflen : r.length < s.size := by
      simp at hlen
      omega
    have hsort : keysSorted ((a :: r).map fun o => (s.store o).key) = true := hC.sorted
    obtain ⟨s', h1, h2, h3, h4, h5, h6⟩ :=
      @removeAux_chain k r a s.size s ha hfrom hsort hflen
    refine ⟨s', ?_, h2, h3, h4, h5, h6⟩
    rw [removeOp, hfi]
    exact h1

theorem wf_of_remove {s s' : LM} {c : List Nat} {k : List Nat}
    (hC : ChainOk s c)
    (hf : s'.first = s.first) (hl : s'.last = s.last)
    (hli : s'.lastInserted = s.lastInserted) (hsz : s'.size = s.size)
    (hst : ∀ j, s'.store j = if j ∈ c ∧ bcmp (s.store j).key k = .eq
      then { s.store j with removed := true } else s.store j)
    (hwf : WF s) : WF s' := by
  have hkey : ∀ j, (s'.store j).key = (s.store j).key := by
    intro j
    rw [hst j]
    split <;> simp
  have hnext : ∀ j, (s'.store j).next = (s.store j).next := by
    intro j
    rw [hst j]
    split <;> simp
  have hprev : ∀ j, (s'.store j).prev = (s.store j).prev := by
    intro j
    rw [hst j]
    split <;> simp
  have hWS : ∀ j, WellSized (s.store j) → WellSized (s'.store j) := by
    intro j hws
    rw [hst j]
    split
    · exact hws
    · exact hws
  refine ⟨⟨c, ?_, hC.nodup, ?_, ?_, ?_⟩, ?_, ?_⟩
  · exact links_congr hf hl (fun o _ => hnext o) (fun o _ => hprev o) hC.linked
  · intro o ho
    rw [hli]
    exact hC.ub o ho
  · intro o ho
    exact hWS o (hC.sized o ho)
  · have : chainKeys s' c = chainKeys s c := by
      simp [chainKeys, hkey]
    rw [this]
    exact hC.sorted
  · rcases hwf.rootSize with ⟨w1, w2, w3, w4⟩ | ⟨w1, w2, w3, w4⟩
    · exact Or.inl ⟨hli.trans w1, hf.trans w2, hl.trans w3, hsz.trans w4⟩
    · refine Or.inr ⟨hli ▸ w1, hf ▸ w2, ?_, ?_⟩
      · rw [hli, hst s.lastInserted]
        split
        · exact ⟨w3.1, w3.2⟩
        · exact w3
      · rw [hli, hst s.lastInserted, hsz]
        split
        · exact w4
        · exact w4
  · intro j hj
    rw [hli] at hj
    rw [hst j, if_neg]
    · exact hwf.fresh j hj
    · rintro ⟨hjc, _⟩
      exact absurd (hC.ub j hjc) (by omega)

/-! ### The append step -/

@[simp] theorem appendState_first (s : LM) (k v : List Nat) :
    (appendState s k v).first = s.first := rfl

@[simp] theorem appendState_last (s : LM) (k v : List Nat) :
    (appendState s k v).last = s.last := rfl

@[simp] theorem appendState_size (s : LM) (k v : List Nat) :
    (appendState s k v).size = s.size := rfl

@[simp] theorem appendState_lastInserted (s : LM) (k v : List Nat) :
    (appendState s k v).lastInserted = bumpOffset s := rfl

theorem appendState_store_self (s : LM) (k v : List Nat) :
    (appendState s k v).store (bumpOffset s) = appendRec s k v := by
  simp [appendState, Function.update_apply]

theorem appendState_store_other (s : LM) (k v : List Nat) {j : Nat}
    (h : j ≠ bumpOffset s) :
    (appendState s k v).store j = s.store j := by
  simp [appendState, Function.update_apply, h]

theorem KVAdm.klen (h : KVAdm k v) : k.length % 65536 = k.length := by
  unfold KVAdm at h
  simp at h
  exact Nat.mod_eq_of_lt (by omega)

theorem KVAdm.vlen (h : KVAdm k v) : v.length % 65536 = v.length := by
  unfold KVAdm at h
  simp at h
  exact Nat.mod_eq_of_lt (by omega)

theorem bumpOffset_eq {s : LM} (hli : s.lastInserted ≠ 0)
    (hws : WellSized (s.store s.lastInserted)) :
    bumpOffset s = s.lastInserted + recSize (s.store s.lastInserted) := by
  unfold bumpOffset
  rw [readRec_pos hli]
  have h2 := hws.2
  unfold recSize at h2 ⊢
  simp at h2 ⊢
  rw [Nat.mod_eq_of_lt (by omega)]
  omega

theorem bumpOffset_gt {s : LM} (hli : s.lastInserted ≠ 0)
    (hws : WellSized (s.store s.lastInserted)) :
    s.lastInserted + recordLength ≤ bumpOffset s := by
  rw [bumpOffset_eq hli hws]
  unfold recSize
  omega

theorem appendRec_fresh {s : LM} {k v : List Nat}
    (hfresh : s.store (bumpOffset s) = emptyRec) (hadm : KVAdm k v) :
    appendRec s k v = ⟨0, 0, k.length, v.length, false, k ++ v⟩ := by
  unfold appendRec
  rw [hfresh, hadm.klen, hadm.vlen]
  rfl

theorem Rec.key_mk (p n kl vl : Nat) (rm : Bool) (pl : List Nat) :
    Rec.key ⟨p, n, kl, vl, rm, pl⟩ = pl.take kl := rfl

theorem Rec.value_mk (p n kl vl : Nat) (rm : Bool) (pl : List Nat) :
    Rec.value ⟨p, n, kl, vl, rm, pl⟩ = (pl.drop kl).take vl := rfl

theorem appendRec_key {s : LM} {k v : List Nat}
    (hfresh : s.store (bumpOffset s) = emptyRec) (hadm : KVAdm k v) :
    (appendRec s k v).key = k := by
  rw [appendRec_fresh hfresh hadm, Rec.key_mk, List.take_left]

theorem appendRec_value {s : LM} {k v : List Nat}
    (hfresh : s.store (bumpOffset s) = emptyRec) (hadm : KVAdm k v) :
    (appendRec s k v).value = v := by
  rw [appendRec_fresh hfresh hadm, Rec.value_mk, List.drop_left, List.take_length]

theorem appendRec_wellSized {s : LM} {k v : List Nat}
    (hfresh : s.store (bumpOffset s) = emptyRec) (hadm : KVAdm k v) :
    WellSized (appendRec s k v) := by
  rw [appendRec_fresh hfresh hadm]
  have := hadm
  unfold KVAdm at this
  refine ⟨by simp, ?_⟩
  unfold recSize
  simp at this ⊢
  omega

/-! ### State descriptions of the fast-path writes -/

theorem setTail_desc {u : LM} {ci : Nat}
    (hlast0 : u.last ≠ 0) (hciL : ci ≠ u.last) (hci0 : ci ≠ 0) :
    (setTail u ci).first = u.first ∧
    (setTail u ci).last = ci ∧
    (setTail u ci).lastInserted = u.lastInserted ∧
    (setTail u ci).size = u.size ∧
    (setTail u ci).store u.last = { u.store u.last with next := ci } ∧
    (setTail u ci).store ci = { u.store ci with prev := u.last } ∧
    ∀ j, j ≠ u.last → j ≠ ci → (setTail u ci).store j = u.store j := by
  unfold setTail
  have h3last : (writeNext u u.last ci).last = u.last := writeNext_last_pos ci hlast0
  have h3store : ∀ j, (writeNext u u.last ci).store j =
      if j = u.last then { u.store u.last with next := ci } else u.store j :=
    writeNext_store ci hlast0
  have h4store : ∀ j, (writePrev (writeNext u u.last ci) ci
        (writeNext u u.last ci).last).store j =
      if j = ci then { (writeNext u u.last ci).store ci with prev :=
        (writeNext u u.last ci).last } else (writeNext u u.last ci).store j :=
    writePrev_store _ hci0
  have hread : (readRec (writePrev (writeNext u u.last ci) ci
      (writeNext u u.last ci).last) u.last).next = ci := by
    rw [readRec_pos hlast0, h4store, if_neg (Ne.symm hciL), h3store, if_pos rfl]
  refine ⟨?_, ?_, ?_, ?_, ?_, ?_, ?_⟩
  · simp [writePrev_first_pos _ hci0]
  · simpa using hread
  · simp
  · simp
  · show (writePrev (writeNext u u.last ci) ci (writeNext u u.last ci).last).store u.last = _
    rw [h4store, if_neg (Ne.symm hciL), h3store, if_pos rfl]
  · show (writePrev (writeNext u u.last ci) ci (writeNext u u.last ci).last).store ci = _
    rw [h4store, if_pos rfl, h3store, if_neg hciL, h3last]
  · intro j hj1 hj2
    show (writePrev (writeNext u u.last ci) ci (writeNext u u.last ci).last).store j = _
    rw [h4store, if_neg hj2, h3store, if_neg hj1]

theorem setHead_desc {u : LM} {ci : Nat}
    (hfirst0 : u.first ≠ 0) (hciF : ci ≠ u.first) (hci0 : ci ≠ 0) :
    (setHead u ci).first = ci ∧
    (setHead u ci).last = u.last ∧
    (setHead u ci).lastInserted = u.lastInserted ∧
    (setHead u ci).size = u.size ∧
    (setHead u ci).store u.first = { u.store u.first with prev := ci } ∧
    (setHead u ci).store ci = { u.store ci with next := u.first } ∧
    ∀ j, j ≠ u.first → j ≠ ci → (setHead u ci).store j = u.store j := by
  unfold setHead
  have h3first : (writePrev u u.first ci).first = u.first :=
    writePrev_first_pos ci hfirst0
  have h3store : ∀ j, (writePrev u u.first ci).store j =
      if j = u.first then { u.store u.first with prev := ci } else u.store j :=
    writePrev_store ci hfirst0
  have h4store : ∀ j, (writeNext (writePrev u u.first ci) ci
        (writePrev u u.first ci).first).store j =
      if j = ci then { (writePrev u u.first ci).store ci with next :=
        (writePrev u u.first ci).first } else (writePrev u u.first ci).store j :=
    writeNext_store _ hci0
  have hread : (readRec (writeNext (writePrev u u.first ci) ci
      (writePrev u u.first ci).first) u.first).prev = ci := by
    rw [readRec_pos hfirst0, h4store, if_neg (Ne.symm hciF), h3store, if_pos rfl]
  refine ⟨?_, ?_, ?_, ?_, ?_, ?_, ?_⟩
  · simpa using hread
  · simp [writeNext_last_pos _ hci0]
  · simp
  · simp
  · show (writeNext (writePrev u u.first ci) ci (writePrev u u.first ci).first).store u.first = _
    rw [h4store, if_neg (Ne.symm hciF), h3store, if_pos rfl]
  · show (writeNext (writePrev u u.first ci) ci (writePrev u u.first ci).first).store ci = _
    rw [h4store, if_pos rfl, h3store, if_neg hciF, h3first]
  · intro j hj1 hj2
    show (writeNext (writePrev u u.first ci) ci (writePrev u u.first ci).first).store j = _
    rw [h4store, if_neg hj2, h3store, if_neg hj1]

theorem chainEnd_mem (a : Nat) (r : List Nat) : chainEnd a r ∈ a :: r := by
  induction r generalizing a with
  | nil => simp
  | cons b r ih =>
    rw [chainEnd_cons]
    rcases List.mem_cons.1 (ih b) with h | h
    · rw [h]; simp
    · exact List.mem_cons_of_mem _ (List.mem_cons_of_mem _ h)

theorem chainEnd_getLast? (a : Nat) (r : List Nat) :
    (a :: r).getLast? = some (chainEnd a r) := by
  induction r generalizing a with
  | nil => rfl
  | cons b r ih =>
    rw [chainEnd_cons, ← ih b]
    rfl

theorem linksFrom_snoc {s t : LM} {ci : Nat} :
    ∀ {a : Nat} {r : List Nat}, linksFrom s a r = true →
      (∀ o ∈ a :: r, o ≠ s.last → (t.store o).next = (s.store o).next) →
      (∀ o ∈ r, (t.store o).prev = (s.store o).prev) →
      (t.store s.last).next = ci →
      (t.store ci).prev = s.last →
      (t.store ci).next = 0 →
      t.last = ci → rootLength ≤ ci →
      linksFrom t a (r ++ [ci]) = true := by
  intro a r
  induction r generalizing a with
  | nil =>
    intro h hn hp h1 h2 h3 h4 h5
    obtain ⟨hna, hla⟩ := linksFrom_nil_iff.1 h
    rw [List.nil_append]
    rw [linksFrom_cons_iff]
    refine ⟨h5, ?_, ?_, ?_⟩
    · rw [← hla]; exact h1
    · rw [h2, hla]
    · rw [linksFrom_nil_iff]
      exact ⟨h3, h4⟩
  | cons b r ih =>
    intro h hn hp h1 h2 h3 h4 h5
    obtain ⟨hb, hnext, hprev, hr⟩ := linksFrom_cons_iff.1 h
    have hlast_next : (s.store s.last).next = 0 := by
      have := linksFrom_last h
      rw [this.1]
      exact this.2
    have hane : a ≠ s.last := by
      intro heq
      rw [heq, hlast_next] at hnext
      simp at hb
      omega
    rw [List.cons_append, linksFrom_cons_iff]
    refine ⟨hb, ?_, ?_, ?_⟩
    · rw [hn a (List.mem_cons_self ..) hane]
      exact hnext
    · rw [hp b (List.mem_cons_self ..)]
      exact hprev
    · exact ih hr (fun o ho => hn o (List.mem_cons_of_mem _ ho))
        (fun o ho => hp o (List.mem_cons_of_mem _ ho)) h1 h2 h3 h4 h5

theorem chainKeys_congr {s t : LM} {c : List Nat}
    (h : ∀ o ∈ c, (t.store o).key = (s.store o).key) :
    chainKeys t c = chainKeys s c := by
  unfold chainKeys
  exact List.map_congr_left h

theorem appendState_chainOk {s : LM} {c : List Nat} {k v : List Nat}
    (hC : ChainOk s c) (hlt : s.lastInserted < bumpOffset s) :
    ChainOk (appendState s k v) c ∧
      ∀ o ∈ c, (appendState s k v).store o = s.store o := by
  have hother : ∀ o ∈ c, (appendState s k v).store o = s.store o := by
    intro o ho
    refine appendState_store_other s k v ?_
    have := hC.ub o ho
    omega
  have hnx : ∀ o ∈ c, ((appendState s k v).store o).next = (s.store o).next :=
    fun o ho => by rw [hother o ho]
  have hpv : ∀ o ∈ c, ((appendState s k v).store o).prev = (s.store o).prev :=
    fun o ho => by rw [hother o ho]
  have hky : ∀ o ∈ c, ((appendState s k v).store o).key = (s.store o).key :=
    fun o ho => by rw [hother o ho]
  refine ⟨⟨?_, hC.nodup, ?_, ?_, ?_⟩, hother⟩
  · exact links_congr (show (appendState s k v).first = s.first from rfl)
      (show (appendState s k v).last = s.last from rfl) hnx hpv hC.linked
  · intro o ho
    have := hC.ub o ho
    simp only [appendState_lastInserted]
    omega
  · intro o ho
    rw [hother o ho]
    exact hC.sized o ho
  · rw [chainKeys_congr hky]
    exact hC.sorted

theorem chainKeys_getLast? (s : LM) (a : Nat) (r : List Nat) :
    (chainKeys s (a :: r)).getLast? = some ((s.store (chainEnd a r)).key) := by
  induction r generalizing a with
  | nil => rfl
  | cons b r ih =>
    rw [chainEnd_cons, ← ih b]
    rfl

theorem wellSized_set_next {r : Rec} {n : Nat} :
    WellSized { r with next := n } ↔ WellSized r := Iff.rfl

theorem wellSized_set_prev {r : Rec} {n : Nat} :
    WellSized { r with prev := n } ↔ WellSized r := Iff.rfl

theorem setTail_ok {s : LM} {c : List Nat} {k v : List Nat}
    (hC : ChainOk s c) (hwf : WF s) (hli0 : s.lastInserted ≠ 0) (hadm : KVAdm k v)
    (hcond : bcmp (s.store s.last).key k = .lt ∨
      (bcmp (s.store s.last).key k = .eq ∧ (s.store s.last).removed = true)) :
    ChainOk (setTail (appendState s k v) (bumpOffset s)) (c ++ [bumpOffset s]) ∧
    (setTail (appendState s k v) (bumpOffset s)).first = s.first ∧
    (setTail (appendState s k v) (bumpOffset s)).last = bumpOffset s ∧
    (setTail (appendState s k v) (bumpOffset s)).lastInserted = bumpOffset s ∧
    (setTail (appendState s k v) (bumpOffset s)).size = s.size ∧
    (setTail (appendState s k v) (bumpOffset s)).store (bumpOffset s) =
      ⟨s.last, 0, k.length, v.length, false, k ++ v⟩ ∧
    (∀ j, bumpOffset s < j →
      (setTail (appendState s k v) (bumpOffset s)).store j = emptyRec) := by
  obtain ⟨w1, w2, w3, w4⟩ : rootLength ≤ s.lastInserted ∧ rootLength ≤ s.first ∧
      WellSized (s.store s.lastInserted) ∧
      s.lastInserted + recSize (s.store s.lastInserted) ≤ s.size := by
    rcases hwf.rootSize with ⟨h1, _⟩ | h
    · exact absurd h1 hli0
    · exact h
  have hlt : s.lastInserted < bumpOffset s := by
    have := bumpOffset_gt hli0 w3
    simp at this
    omega
  have hfreshci : s.store (bumpOffset s) = emptyRec := hwf.fresh _ hlt
  obtain ⟨hCu, hother⟩ := @appendState_chainOk s c k v hC hlt
  rcases hc : c with _ | ⟨a, r⟩
  · rw [hc] at hC
    obtain ⟨hfi, _⟩ := links_nil_iff.1 hC.linked
    rw [hfi] at w2
    simp at w2
  subst hc
  obtain ⟨ha24, hfi, hpa, hfrom⟩ := links_cons_iff.1 hC.linked
  have hlmem : s.last ∈ a :: r := by
    rw [(linksFrom_last hfrom).1]
    exact chainEnd_mem a r
  have hl24 : rootLength ≤ s.last := links_lb hC.linked _ hlmem
  have hlub : s.last ≤ s.lastInserted := hC.ub _ hlmem
  have hl0 : s.last ≠ 0 := by simp at hl24; omega
  have hciL : bumpOffset s ≠ s.last := by omega
  have hci0 : bumpOffset s ≠ 0 := by omega
  have hciA : rootLength ≤ bumpOffset s := by
    simp only [rootLength_eq] at w1 ⊢
    omega
  obtain ⟨d1, d2, d3, d4, d5, d6, d7⟩ :=
    @setTail_desc (appendState s k v) (bumpOffset s)
      (by simp only [appendState_last]; exact hl0)
      (by simp only [appendState_last]; exact hciL) hci0
  simp only [appendState_last] at d5 d6 d7
  have hciRec : (setTail (appendState s k v) (bumpOffset s)).store (bumpOffset s) =
      ⟨s.last, 0, k.length, v.length, false, k ++ v⟩ := by
    rw [d6, appendState_store_self, appendRec_fresh hfreshci hadm]
  have hlastRec : (setTail (appendState s k v) (bumpOffset s)).store s.last =
      { s.store s.last with next := bumpOffset s } := by
    rw [d5, hother s.last hlmem]
  have hoth2 : ∀ j, j ≠ s.last → j ≠ bumpOffset s →
      (setTail (appendState s k v) (bumpOffset s)).store j =
        (appendState s k v).store j := d7
  have hmemstore : ∀ o ∈ a :: r, o ≠ s.last →
      (setTail (appendState s k v) (bumpOffset s)).store o = s.store o := by
    intro o ho hne
    rw [hoth2 o hne (by have := hC.ub o ho; omega), hother o ho]
  have htp : ∀ o ∈ a :: r,
      ((setTail (appendState s k v) (bumpOffset s)).store o).prev =
        (s.store o).prev := by
    intro o ho
    by_cases hne : o = s.last
    · subst hne
      rw [hlastRec]
    · rw [hmemstore o ho hne]
  have htk : ∀ o ∈ a :: r,
      ((setTail (appendState s k v) (bumpOffset s)).store o).key =
        (s.store o).key := by
    intro o ho
    by_cases hne : o = s.last
    · subst hne
      rw [hlastRec]
      simp [Rec.key_def]
    · rw [hmemstore o ho hne]
  refine ⟨⟨?_, ?_, ?_, ?_, ?_⟩, by rw [d1, appendState_first], d2, by rw [d3]; simp,
    by rw [d4]; simp, hciRec, ?_⟩
  · -- linked
    rw [List.cons_append, links_cons_iff]
    refine ⟨ha24, by rw [d1, appendState_first]; exact hfi,
      by rw [htp a (List.mem_cons_self ..)]; exact hpa, ?_⟩
    refine linksFrom_snoc hfrom ?_ ?_ ?_ ?_ ?_ d2 hciA
    · intro o ho hne
      rw [hmemstore o ho hne]
    · intro o ho
      exact htp o (List.mem_cons_of_mem _ ho)
    · rw [hlastRec]
    · rw [hciRec]
    · rw [hciRec]
  · -- nodup
    rw [List.nodup_append]
    refine ⟨hC.nodup, List.nodup_singleton _, ?_⟩
    intro x hx hx2
    rcases List.mem_singleton.1 hx2 with rfl
    have := hC.ub _ hx
    omega
  · -- upper bound
    intro o ho
    rw [d3]
    simp only [appendState_lastInserted]
    rcases List.mem_append.1 ho with ho | ho
    · have := hC.ub o ho
      omega
    · rcases List.mem_singleton.1 ho with rfl
      omega
  · -- sized
    intro o ho
    rcases List.mem_append.1 ho with ho | ho
    · by_cases hne : o = s.last
      · subst hne
        rw [hlastRec]
        exact wellSized_set_next.2 (hC.sized _ hlmem)
      · rw [hmemstore o ho hne]
        exact hC.sized o ho
    · rcases List.mem_singleton.1 ho with rfl
      rw [hciRec]
      have := hadm
      unfold KVAdm at this
      simp at this
      refine ⟨by simp, ?_⟩
      unfold recSize
      simp
      omega
  · -- sorted
    have hmap : chainKeys (setTail (appendState s k v) (bumpOffset s))
        ((a :: r) ++ [bumpOffset s]) = chainKeys s (a :: r) ++ [k] := by
      unfold chainKeys
      rw [List.map_append]
      congr 1
      · exact List.map_congr_left htk
      · simp only [List.map_cons, List.map_nil, hciRec]
        rw [Rec.key_mk, List.take_left]
    rw [hmap, keysSorted_append]
    refine ⟨hC.sorted, rfl, ?_⟩
    intro x hx y hy
    rw [chainKeys_getLast?] at hx
    simp at hx hy
    subst hx
    subst hy
    rw [← (linksFrom_last hfrom).1]
    rcases hcond with h | h
    · rw [h]; simp
    · rw [h.1]; simp
  · -- fresh
    intro j hj
    rw [hoth2 j (by omega) (by omega),
      appendState_store_other s k v (by omega : j ≠ bumpOffset s)]
    exact hwf.fresh j (by omega)

theorem setHead_ok {s : LM} {c : List Nat} {k v : List Nat}
    (hC : ChainOk s c) (hwf : WF s) (hli0 : s.lastInserted ≠ 0) (hadm : KVAdm k v)
    (hcond : bcmp (s.store s.first).key k = .gt ∨
      (bcmp (s.store s.first).key k = .eq ∧ (s.store s.first).removed = true)) :
    ChainOk (setHead (appendState s k v) (bumpOffset s)) (bumpOffset s :: c) ∧
    (setHead (appendState s k v) (bumpOffset s)).first = bumpOffset s ∧
    (setHead (appendState s k v) (bumpOffset s)).last = s.last ∧
    (setHead (appendState s k v) (bumpOffset s)).lastInserted = bumpOffset s ∧
    (setHead (appendState s k v) (bumpOffset s)).size = s.size ∧
    (setHead (appendState s k v) (bumpOffset s)).store (bumpOffset s) =
      ⟨0, s.first, k.length, v.length, false, k ++ v⟩ ∧
    (∀ j, bumpOffset s < j →
      (setHead (appendState s k v) (bumpOffset s)).store j = emptyRec) := by
  obtain ⟨w1, w2, w3, w4⟩ : rootLength ≤ s.lastInserted ∧ rootLength ≤ s.first ∧
      WellSized (s.store s.lastInserted) ∧
      s.lastInserted + recSize (s.store s.lastInserted) ≤ s.size := by
    rcases hwf.rootSize with ⟨h1, _⟩ | h
    · exact absurd h1 hli0
    · exact h
  have hlt : s.lastInserted < bumpOffset s := by
    have := bumpOffset_gt hli0 w3
    simp at this
    omega
  have hfreshci : s.store (bumpOffset s) = emptyRec := hwf.fresh _ hlt
  obtain ⟨hCu, hother⟩ := @appendState_chainOk s c k v hC hlt
  rcases hc : c with _ | ⟨a, r⟩
  · rw [hc] at hC
    obtain ⟨hfi, _⟩ := links_nil_iff.1 hC.linked
    rw [hfi] at w2
    simp at w2
  subst hc
  obtain ⟨ha24, hfi, hpa, hfrom⟩ := links_cons_iff.1 hC.linked
  have hfmem : s.first ∈ a :: r := by
    rw [hfi]
    exact List.mem_cons_self ..
  have hfub : s.first ≤ s.lastInserted := hC.ub _ hfmem
  have hf0 : s.first ≠ 0 := by simp at w2; omega
  have hciF : bumpOffset s ≠ s.first := by omega
  have hci0 : bumpOffset s ≠ 0 := by omega
  have hciA : rootLength ≤ bumpOffset s := by
    simp only [rootLength_eq] at w1 ⊢
    omega
  obtain ⟨d1, d2, d3, d4, d5, d6, d7⟩ :=
    @setHead_desc (appendState s k v) (bumpOffset s)
      (by simp only [appendState_first]; exact hf0)
      (by simp only [appendState_first]; exact hciF) hci0
  simp only [appendState_first] at d5 d6 d7
  have hciRec : (setHead (appendState s k v) (bumpOffset s)).store (bumpOffset s) =
      ⟨0, s.first, k.length, v.length, false, k ++ v⟩ := by
    rw [d6, appendState_store_self, appendRec_fresh hfreshci hadm]
  have hfirstRec : (setHead (appendState s k v) (bumpOffset s)).store s.first =
      { s.store s.first with prev := bumpOffset s } := by
    rw [d5, hother s.first hfmem]
  have hoth2 : ∀ j, j ≠ s.first → j ≠ bumpOffset s →
      (setHead (appendState s k v) (bumpOffset s)).store j =
        (appendState s k v).store j := d7
  have hmemstore : ∀ o ∈ a :: r, o ≠ s.first →
      (setHead (appendState s k v) (bumpOffset s)).store o = s.store o := by
    intro o ho hne
    rw [hoth2 o hne (by have := hC.ub o ho; omega), hother o ho]
  have htn : ∀ o ∈ a :: r,
      ((setHead (appendState s k v) (bumpOffset s)).store o).next =
        (s.store o).next := by
    intro o ho
    by_cases hne : o = s.first
    · subst hne
      rw [hfirstRec]
    · rw [hmemstore o ho hne]
  have htk : ∀ o ∈ a :: r,
      ((setHead (appendState s k v) (bumpOffset s)).store o).key =
        (s.store o).key := by
    intro o ho
    by_cases hne : o = s.first
    · subst hne
      rw [hfirstRec]
      simp [Rec.key_def]
    · rw [hmemstore o ho hne]
  have hanr : a ∉ r := (List.nodup_cons.1 hC.nodup).1
  refine ⟨⟨?_, ?_, ?_, ?_, ?_⟩, d1, by rw [d2]; simp, by rw [d3]; simp,
    by rw [d4]; simp, hciRec, ?_⟩
  · -- linked
    rw [links_cons_iff]
    refine ⟨hciA, d1, by rw [hciRec], ?_⟩
    rw [linksFrom_cons_iff]
    refine ⟨ha24, by rw [hciRec]; simpa using hfi, ?_, ?_⟩
    · have : ((setHead (appendState s k v) (bumpOffset s)).store a).prev =
          bumpOffset s := by
        rw [← hfi, hfirstRec]
      rw [this]
    · refine linksFrom_congr (by rw [d2]; simp) ?_ ?_ hfrom
      · intro o ho
        exact htn o ho
      · intro o ho
        have hne : o ≠ s.first := by
          rw [hfi]
          intro heq
          exact hanr (heq ▸ ho)
        rw [hmemstore o (List.mem_cons_of_mem _ ho) hne]
  · -- nodup
    rw [List.nodup_cons]
    refine ⟨?_, hC.nodup⟩
    intro hmem
    have := hC.ub _ hmem
    omega
  · -- upper bound
    intro o ho
    rw [d3]
    simp only [appendState_lastInserted]
    rcases List.mem_cons.1 ho with rfl | ho
    · omega
    · have := hC.ub o ho
      omega
  · -- sized
    intro o ho
    rcases List.mem_cons.1 ho with rfl | ho
    · rw [hciRec]
      have := hadm
      unfold KVAdm at this
      simp at this
      refine ⟨by simp, ?_⟩
      unfold recSize
      simp
      omega
    · by_cases hne : o = s.first
      · subst hne
        rw [hfirstRec]
        exact wellSized_set_prev.2 (hC.sized _ hfmem)
      · rw [hmemstore o ho hne]
        exact hC.sized o ho
  · -- sorted
    have hmap : chainKeys (setHead (appendState s k v) (bumpOffset s))
        (bumpOffset s :: a :: r) = k :: chainKeys s (a :: r) := by
      unfold chainKeys
      simp only [List.map_cons, hciRec]
      rw [Rec.key_mk, List.take_left]
      congr 1
      exact List.map_congr_left htk
    rw [hmap]
    have hbk : bcmp k (s.store a).key ≠ .gt := by
      rw [← hfi]
      rcases hcond with h | h
      · rw [bcmp_gt_iff_lt] at h
        rw [h]
        simp
      · have := bcmp_eq_iff.1 h.1
        rw [← this, bcmp_refl]
        simp
    show keysSorted ([k] ++ chainKeys s (a :: r)) = true
    rw [keysSorted_append]
    refine ⟨rfl, hC.sorted, ?_⟩
    intro x hx y hy
    simp at hx
    subst hx
    unfold chainKeys at hy
    simp only [List.map_cons, List.head?_cons] at hy
    simp at hy
    subst hy
    exact hbk
  · -- fresh
    intro j hj
    rw [hoth2 j (by omega) (by omega),
      appendState_store_other s k v (by omega : j ≠ bumpOffset s)]
    exact hwf.fresh j (by omega)

/-! ### The general path -/

theorem walkGen_succ (fuel : Nat) (s : LM) (ci : Nat) (key : List Nat) (i : Nat) :
    walkGen (fuel + 1) s ci key i =
      if bcmp (readRec s i).key key = .eq ∧ (readRec s i).removed = false then
        (s, .keyPresent)
      else if bcmp (readRec s i).key key = .lt then
        if (readRec s i).next = 0 then (s, .panicked)
        else
          (writePrev (writeNext (writePrev (writeNext s ci (readRec s i).next) ci i)
            i ci) (readRec s i).next ci, .ok)
      else if (readRec s i).prev = 0 then (s, .unknownErr)
      else walkGen fuel s ci key (readRec s i).prev := rfl

/-- The state left by the general path's four link writes (listmap.go
lines 210-214), in source order. -/
def spliceState (u : LM) (ci p b1 : Nat) : LM :=
  writePrev (writeNext (writePrev (writeNext u ci b1) ci p) p ci) b1 ci

theorem splice_desc {u : LM} {ci p b1 : Nat}
    (hci0 : ci ≠ 0) (hp0 : p ≠ 0) (hb0 : b1 ≠ 0)
    (hpb : p ≠ b1) (hcip : ci ≠ p) (hcib : ci ≠ b1) :
    (spliceState u ci p b1).first = u.first ∧
    (spliceState u ci p b1).last = u.last ∧
    (spliceState u ci p b1).lastInserted = u.lastInserted ∧
    (spliceState u ci p b1).size = u.size ∧
    (spliceState u ci p b1).store ci = { u.store ci with prev := p, next := b1 } ∧
    (spliceState u ci p b1).store p = { u.store p with next := ci } ∧
    (spliceState u ci p b1).store b1 = { u.store b1 with prev := ci } ∧
    ∀ j, j ≠ ci → j ≠ p → j ≠ b1 → (spliceState u ci p b1).store j = u.store j := by
  unfold spliceState
  have e1 := writeNext_store (s := u) b1 hci0
  refine ⟨?_, ?_, ?_, ?_, ?_, ?_, ?_, ?_⟩
  · simp [writePrev_first_pos _ hb0, writePrev_first_pos _ hci0]
  · simp [writeNext_last_pos _ hp0, writeNext_last_pos _ hci0]
  · simp
  · simp
  · rw [writePrev_store _ hb0 ci, if_neg hcib, writeNext_store _ hp0 ci,
      if_neg hcip, writePrev_store _ hci0 ci, if_pos rfl,
      writeNext_store _ hci0 ci, if_pos rfl]
  · rw [writePrev_store _ hb0 p, if_neg hpb, writeNext_store _ hp0 p,
      if_pos rfl, writePrev_store _ hci0 p, if_neg (Ne.symm hcip),
      writeNext_store _ hci0 p, if_neg (Ne.symm hcip)]
  · rw [writePrev_store _ hb0 b1, if_pos rfl, writeNext_store _ hp0 b1,
      if_neg (Ne.symm hpb), writePrev_store _ hci0 b1, if_neg (Ne.symm hcib),
      writeNext_store _ hci0 b1, if_neg (Ne.symm hcib)]
  · intro j hj1 hj2 hj3
    rw [writePrev_store _ hb0 j, if_neg hj3, writeNext_store _ hp0 j,
      if_neg hj2, writePrev_store _ hci0 j, if_neg hj1,
      writeNext_store _ hci0 j, if_neg hj1]

theorem chainEnd_snoc (a : Nat) (A : List Nat) (p : Nat) :
    chainEnd a (A ++ [p]) = p := by
  induction A generalizing a with
  | nil => rfl
  | cons q A ih =>
    rw [List.cons_append, chainEnd_cons]
    exact ih q

theorem links_last_eq {u : LM} {c A : List Nat} {p : Nat}
    (h : links u c = true) (hc : c = A ++ [p]) : u.last = p := by
  subst hc
  cases A with
  | nil =>
    obtain ⟨_, _, _, hfrom⟩ := links_cons_iff.1 h
    simpa using (linksFrom_last hfrom).1
  | cons a A =>
    rw [List.cons_append] at h
    obtain ⟨_, _, _, hfrom⟩ := links_cons_iff.1 h
    have := (linksFrom_last hfrom).1
    rwa [chainEnd_snoc] at this

theorem linksFrom_adjacent {u : LM} :
    ∀ {a : Nat} {r X : List Nat} {p b1 : Nat} {Y : List Nat},
      linksFrom u a r = true → r = X ++ p :: b1 :: Y →
      rootLength ≤ b1 ∧ (u.store p).next = b1 ∧ (u.store b1).prev = p := by
  intro a r
  induction r generalizing a with
  | nil =>
    intro X p b1 Y _ hc
    exact absurd hc (by simp)
  | cons x r ih =>
    intro X p b1 Y h hc
    obtain ⟨hx, hnext, hprev, hr⟩ := linksFrom_cons_iff.1 h
    cases X with
    | nil =>
      simp only [List.nil_append] at hc
      obtain ⟨rfl, hc2⟩ := List.cons.injEq .. ▸ hc
      cases r with
      | nil => cases hc2
      | cons y r' =>
        obtain ⟨rfl, _⟩ := List.cons.injEq .. ▸ hc2
        obtain ⟨hy, hnext2, hprev2, _⟩ := linksFrom_cons_iff.1 hr
        exact ⟨hy, hnext2, hprev2⟩
    | cons x' X' =>
      obtain ⟨rfl, hc2⟩ := List.cons.injEq .. ▸ hc
      exact ih hr hc2

theorem links_adjacent {u : LM} {c : List Nat} {X : List Nat} {p b1 : Nat}
    {Y : List Nat} (h : links u c = true) (hc : c = X ++ p :: b1 :: Y) :
    rootLength ≤ b1 ∧ (u.store p).next = b1 ∧ (u.store b1).prev = p := by
  subst hc
  cases X with
  | nil =>
    obtain ⟨_, _, _, hfrom⟩ := links_cons_iff.1 h
    obtain ⟨hb, hnext, hprev, _⟩ := linksFrom_cons_iff.1 hfrom
    exact ⟨hb, hnext, hprev⟩
  | cons a X' =>
    rw [List.cons_append] at h
    obtain ⟨_, _, _, hfrom⟩ := links_cons_iff.1 h
    exact linksFrom_adjacent hfrom rfl

/-- The condition under which the backward scan retreats past a record:
strictly greater key, or equal key with the tombstone set. -/
def SkipRec (u : LM) (k : List Nat) (o : Nat) : Prop :=
  bcmp (u.store o).key k = .gt ∨
    (bcmp (u.store o).key k = .eq ∧ (u.store o).removed = true)

theorem walkGen_aux {u : LM} {ci : Nat} {k : List Nat} {c : List Nat}
    (hlink : links u c = true)
    (htail : ¬(bcmp (u.store u.last).key k = .lt ∨
      (bcmp (u.store u.last).key k = .eq ∧ (u.store u.last).removed = true)))
    (hhead : ¬(bcmp (u.store u.first).key k = .gt ∨
      (bcmp (u.store u.first).key k = .eq ∧ (u.store u.first).removed = true))) :
    ∀ (A : List Nat) (p : Nat) (B : List Nat) (fuel : Nat),
      c = A ++ p :: B →
      (∀ x ∈ B, SkipRec u k x) →
      A.length < fuel →
      (walkGen fuel u ci k p = (u, .keyPresent) ∧
        ∃ j ∈ c, bcmp (u.store j).key k = .eq ∧ (u.store j).removed = false) ∨
      (∃ A' p' b1 B', c = A' ++ p' :: b1 :: B' ∧
        bcmp (u.store p').key k = .lt ∧
        (∀ x ∈ b1 :: B', SkipRec u k x) ∧
        walkGen fuel u ci k p = (spliceState u ci p' b1, .ok)) := by
  intro A
  induction A using List.reverseRecOn with
  | nil =>
    intro p B fuel hc hB hlen
    obtain ⟨f, rfl⟩ : ∃ f, fuel = f + 1 := ⟨fuel - 1, by omega⟩
    have hpmem : p ∈ c := by rw [hc]; exact List.mem_cons_self ..
    have hp24 : rootLength ≤ p := links_lb hlink p hpmem
    have hp0 : p ≠ 0 := by simp at hp24; omega
    have hfirst : u.first = p := by
      rw [List.nil_append] at hc
      exact (links_cons_iff.1 (hc ▸ hlink)).2.1
    by_cases h1 : bcmp (u.store p).key k = .eq ∧ (u.store p).removed = false
    · refine Or.inl ⟨?_, p, hpmem, h1⟩
      rw [walkGen_succ, readRec_pos hp0, if_pos h1]
    · by_cases h2 : bcmp (u.store p).key k = .lt
      · rcases B with _ | ⟨b1, B'⟩
        · have hlast : u.last = p := @links_last_eq u c [] p hlink hc
          rw [hlast] at htail
          exact absurd (Or.inl h2) htail
        · obtain ⟨hb24, hnext, hprev⟩ :=
            @links_adjacent u c [] p b1 B' hlink hc
          have hb0 : b1 ≠ 0 := by simp at hb24; omega
          refine Or.inr ⟨[], p, b1, B', hc, h2, hB, ?_⟩
          rw [walkGen_succ, readRec_pos hp0, if_neg h1, if_pos h2, hnext,
            if_neg hb0]
          rfl
      · have hskip : SkipRec u k p := by
          rcases h3 : bcmp (u.store p).key k with _ | _ | _
          · exact absurd h3 h2
          · rcases h4 : (u.store p).removed with _ | _
            · exact absurd ⟨h3, h4⟩ h1
            · exact Or.inr ⟨h3, h4⟩
          · exact Or.inl h3
        rw [hfirst] at hhead
        exact absurd hskip hhead
  | append_singleton A' q ih =>
    intro p B fuel hc hB hlen
    obtain ⟨f, rfl⟩ : ∃ f, fuel = f + 1 := ⟨fuel - 1, by omega⟩
    have hc' : c = A' ++ q :: p :: B := by
      rw [hc]
      simp
    have hpmem : p ∈ c := by
      rw [hc]
      exact List.mem_append_right _ (List.mem_cons_self ..)
    have hqmem : q ∈ c := by
      rw [hc']
      exact List.mem_append_right _ (List.mem_cons_self ..)
    have hp24 : rootLength ≤ p := links_lb hlink p hpmem
    have hp0 : p ≠ 0 := by simp at hp24; omega
    have hq24 : rootLength ≤ q := links_lb hlink q hqmem
    have hq0 : q ≠ 0 := by simp at hq24; omega
    by_cases h1 : bcmp (u.store p).key k = .eq ∧ (u.store p).removed = false
    · refine Or.inl ⟨?_, p, hpmem, h1⟩
      rw [walkGen_succ, readRec_pos hp0, if_pos h1]
    · by_cases h2 : bcmp (u.store p).key k = .lt
      · rcases B with _ | ⟨b1, B'⟩
        · have hlast : u.last = p := @links_last_eq u c (A' ++ [q]) p hlink hc
          rw [hlast] at htail
          exact absurd (Or.inl h2) htail
        · obtain ⟨hb24, hnext, hprev⟩ :=
            @links_adjacent u c (A' ++ [q]) p b1 B' hlink hc
          have hb0 : b1 ≠ 0 := by simp at hb24; omega
          refine Or.inr ⟨A' ++ [q], p, b1, B', hc, h2, hB, ?_⟩
          rw [walkGen_succ, readRec_pos hp0, if_neg h1, if_pos h2, hnext,
            if_neg hb0]
          rfl
      · have hskip : SkipRec u k p := by
          rcases h3 : bcmp (u.store p).key k with _ | _ | _
          · exact absurd h3 h2
          · rcases h4 : (u.store p).removed with _ | _
            · exact absurd ⟨h3, h4⟩ h1
            · exact Or.inr ⟨h3, h4⟩
          · exact Or.inl h3
        obtain ⟨_, hnextq, hprevp⟩ := @links_adjacent u c A' q p B hlink hc'
        have hstep : walkGen (f + 1) u ci k p = walkGen f u ci k q := by
          rw [walkGen_succ, readRec_pos hp0, if_neg h1, if_neg h2, hprevp,
            if_neg hq0]
        have hB' : ∀ x ∈ p :: B, SkipRec u k x := by
          intro x hx
          rcases List.mem_cons.1 hx with rfl | hx
          · exact hskip
          · exact hB x hx
        have hlen' : A'.length < f := by
          simp at hlen
          omega
        rcases ih q (p :: B) f hc' hB' hlen' with ⟨heq, hex⟩ | ⟨A2, p2, b2, B2, hc2, hlt2, hsk2, heq2⟩
        · exact Or.inl ⟨hstep.trans heq, hex⟩
        · exact Or.inr ⟨A2, p2, b2, B2, hc2, hlt2, hsk2, hstep.trans heq2⟩

theorem linksFrom_splice_aux {u t : LM} {p b1 ci : Nat} {B : List Nat}
    (hla : t.last = u.last)
    (Fnext : ∀ o, o ≠ p → o ≠ ci → (t.store o).next = (u.store o).next)
    (Fprev : ∀ o, o ≠ b1 → o ≠ ci → (t.store o).prev = (u.store o).prev)
    (hnp : (t.store p).next = ci) (hpc : (t.store ci).prev = p)
    (hnc : (t.store ci).next = b1) (hpb : (t.store b1).prev = ci)
    (hci24 : rootLength ≤ ci) (hpbne : p ≠ b1)
    (HpB : p ∉ B) (HbB : b1 ∉ B) :
    ∀ {a : Nat} {A : List Nat},
      linksFrom u a (A ++ p :: b1 :: B) = true →
      p ∉ a :: A → b1 ∉ a :: A →
      (∀ o ∈ a :: (A ++ p :: b1 :: B), o ≠ ci) →
      linksFrom t a (A ++ p :: ci :: b1 :: B) = true := by
  intro a A
  induction A generalizing a with
  | nil =>
    intro h Hp Hb Hne
    simp only [List.nil_append] at h ⊢
    obtain ⟨hp24, hnpa, hppa, h2⟩ := linksFrom_cons_iff.1 h
    obtain ⟨hb24, hnpb, hppb, h3⟩ := linksFrom_cons_iff.1 h2
    have hap : a ≠ p := fun heq => Hp (by rw [heq]; exact List.mem_cons_self ..)
    have hane : a ≠ ci := Hne a (List.mem_cons_self ..)
    have hpne : p ≠ ci := Hne p (by simp)
    have hbne : b1 ≠ ci := Hne b1 (by simp)
    rw [linksFrom_cons_iff]
    refine ⟨hp24, by rw [Fnext a hap hane]; exact hnpa, ?_, ?_⟩
    · rw [Fprev p hpbne hpne]
      exact hppa
    · rw [linksFrom_cons_iff]
      refine ⟨hci24, hnp, hpc, ?_⟩
      rw [linksFrom_cons_iff]
      refine ⟨hb24, hnc, hpb, ?_⟩
      refine linksFrom_congr hla ?_ ?_ h3
      · intro o ho
        rcases List.mem_cons.1 ho with rfl | ho
        · exact Fnext o (Ne.symm hpbne) hbne
        · exact Fnext o (fun heq => HpB (heq ▸ ho))
            (Hne o (by simp [ho]))
      · intro o ho
        exact Fprev o (fun heq => HbB (heq ▸ ho)) (Hne o (by simp [ho]))
  | cons a' A' ih =>
    intro h Hp Hb Hne
    rw [List.cons_append] at h ⊢
    obtain ⟨ha24, hnaa, hpaa, h2⟩ := linksFrom_cons_iff.1 h
    have hap : a ≠ p := fun heq => Hp (by rw [heq]; exact List.mem_cons_self ..)
    have hane : a ≠ ci := Hne a (List.mem_cons_self ..)
    have hab : a' ≠ b1 := fun heq => Hb (by rw [← heq]; simp)
    have ha'ne : a' ≠ ci := Hne a' (by simp)
    rw [linksFrom_cons_iff]
    refine ⟨ha24, by rw [Fnext a hap hane]; exact hnaa, ?_, ?_⟩
    · rw [Fprev a' hab ha'ne]
      exact hpaa
    · refine ih h2 ?_ ?_ ?_
      · intro hmem
        exact Hp (List.mem_cons_of_mem _ hmem)
      · intro hmem
        exact Hb (List.mem_cons_of_mem _ hmem)
      · intro o ho
        exact Hne o (List.mem_cons_of_mem _ ho)

theorem links_splice {u t : LM} {c A : List Nat} {p b1 : Nat} {B : List Nat}
    {ci : Nat}
    (hlink : links u c = true) (hc : c = A ++ p :: b1 :: B)
    (hfr : t.first = u.first) (hla : t.last = u.last)
    (Fnext : ∀ o, o ≠ p → o ≠ ci → (t.store o).next = (u.store o).next)
    (Fprev : ∀ o, o ≠ b1 → o ≠ ci → (t.store o).prev = (u.store o).prev)
    (hnp : (t.store p).next = ci) (hpc : (t.store ci).prev = p)
    (hnc : (t.store ci).next = b1) (hpb : (t.store b1).prev = ci)
    (hci24 : rootLength ≤ ci) (hpbne : p ≠ b1)
    (HpA : p ∉ A) (HbA : b1 ∉ A) (HpB : p ∉ B) (HbB : b1 ∉ B)
    (Hne : ∀ o ∈ c, o ≠ ci) :
    links t (A ++ p :: ci :: b1 :: B) = true := by
  subst hc
  cases A with
  | nil =>
    simp only [List.nil_append] at hlink ⊢
    obtain ⟨hp24, hfi, hpp, hfrom⟩ := links_cons_iff.1 hlink
    obtain ⟨hb24, hnpb, hppb, h3⟩ := linksFrom_cons_iff.1 hfrom
    have hpne : p ≠ ci := Hne p (by simp)
    have hbne : b1 ≠ ci := Hne b1 (by simp)
    rw [links_cons_iff]
    refine ⟨hp24, by rw [hfr]; exact hfi, ?_, ?_⟩
    · rw [Fprev p hpbne hpne]
      exact hpp
    · rw [linksFrom_cons_iff]
      refine ⟨hci24, hnp, hpc, ?_⟩
      rw [linksFrom_cons_iff]
      refine ⟨hb24, hnc, hpb, ?_⟩
      refine linksFrom_congr hla ?_ ?_ h3
      · intro o ho
        rcases List.mem_cons.1 ho with rfl | ho
        · exact Fnext o (Ne.symm hpbne) hbne
        · exact Fnext o (fun heq => HpB (heq ▸ ho)) (Hne o (by simp [ho]))
      · intro o ho
        exact Fprev o (fun heq => HbB (heq ▸ ho)) (Hne o (by simp [ho]))
  | cons a A' =>
    rw [List.cons_append] at hlink ⊢
    obtain ⟨ha24, hfi, hpa, hfrom⟩ := links_cons_iff.1 hlink
    have hane : a ≠ ci := Hne a (by simp)
    have hab : a ≠ b1 := by
      intro heq
      exact HbA (by rw [← heq]; exact List.mem_cons_self ..)
    rw [links_cons_iff]
    refine ⟨ha24, by rw [hfr]; exact hfi, ?_, ?_⟩
    · rw [Fprev a hab hane]
      exact hpa
    · refine linksFrom_splice_aux hla Fnext Fprev hnp hpc hnc hpb hci24 hpbne
        HpB HbB hfrom HpA HbA ?_
      intro o ho
      exact Hne o ho

theorem splice_ok {s : LM} {c A : List Nat} {p b1 : Nat} {B : List Nat}
    {k v : List Nat}
    (hC : ChainOk s c) (hwf : WF s) (hli0 : s.lastInserted ≠ 0) (hadm : KVAdm k v)
    (hc : c = A ++ p :: b1 :: B)
    (hlt : bcmp (s.store p).key k = .lt)
    (hgeb1 : bcmp k (s.store b1).key ≠ .gt) :
    ChainOk (spliceState (appendState s k v) (bumpOffset s) p b1)
      (A ++ p :: bumpOffset s :: b1 :: B) ∧
    (spliceState (appendState s k v) (bumpOffset s) p b1).first = s.first ∧
    (spliceState (appendState s k v) (bumpOffset s) p b1).last = s.last ∧
    (spliceState (appendState s k v) (bumpOffset s) p b1).lastInserted = bumpOffset s ∧
    (spliceState (appendState s k v) (bumpOffset s) p b1).size = s.size ∧
    (spliceState (appendState s k v) (bumpOffset s) p b1).store (bumpOffset s) =
      ⟨p, b1, k.length, v.length, false, k ++ v⟩ ∧
    (∀ j, bumpOffset s < j →
      (spliceState (appendState s k v) (bumpOffset s) p b1).store j = emptyRec) := by
  obtain ⟨w1, w2, w3, w4⟩ : rootLength ≤ s.lastInserted ∧ rootLength ≤ s.first ∧
      WellSized (s.store s.lastInserted) ∧
      s.lastInserted + recSize (s.store s.lastInserted) ≤ s.size := by
    rcases hwf.rootSize with ⟨h1, _⟩ | h
    · exact absurd h1 hli0
    · exact h
  have hlt' : s.lastInserted < bumpOffset s := by
    have := bumpOffset_gt hli0 w3
    simp at this
    omega
  have hfreshci : s.store (bumpOffset s) = emptyRec := hwf.fresh _ hlt'
  obtain ⟨hCu, hother⟩ := @appendState_chainOk s c k v hC hlt'
  have hpmem : p ∈ c := by rw [hc]; exact List.mem_append_right _ (by simp)
  have hbmem : b1 ∈ c := by rw [hc]; exact List.mem_append_right _ (by simp)
  have hp24 : rootLength ≤ p := links_lb hC.linked p hpmem
  have hb24 : rootLength ≤ b1 := links_lb hC.linked b1 hbmem
  have hpub : p ≤ s.lastInserted := hC.ub _ hpmem
  have hbub : b1 ≤ s.lastInserted := hC.ub _ hbmem
  have hp0 : p ≠ 0 := by simp at hp24; omega
  have hb0 : b1 ≠ 0 := by simp at hb24; omega
  have hci0 : bumpOffset s ≠ 0 := by omega
  have hcip : bumpOffset s ≠ p := by omega
  have hcib : bumpOffset s ≠ b1 := by omega
  have hci24 : rootLength ≤ bumpOffset s := by
    simp only [rootLength_eq] at w1 ⊢
    omega
  obtain ⟨nodA, nodPB, disjA⟩ := List.nodup_append.1 (hc ▸ hC.nodup)
  have hpbB : p ∉ b1 :: B := (List.nodup_cons.1 nodPB).1
  have hpbne : p ≠ b1 := fun heq => hpbB (heq ▸ List.mem_cons_self ..)
  have hpB : p ∉ B := fun hmem => hpbB (List.mem_cons_of_mem _ hmem)
  have hbB : b1 ∉ B := (List.nodup_cons.1 (List.nodup_cons.1 nodPB).2).1
  have hpA : p ∉ A := fun hmem => disjA hmem (List.mem_cons_self ..)
  have hbA : b1 ∉ A := fun hmem => disjA hmem (by simp)
  obtain ⟨d1, d2, d3, d4, d5, d6, d7, d8⟩ :=
    @splice_desc (appendState s k v) (bumpOffset s) p b1 hci0 hp0 hb0 hpbne hcip hcib
  have hciRec : (spliceState (appendState s k v) (bumpOffset s) p b1).store
      (bumpOffset s) = ⟨p, b1, k.length, v.length, false, k ++ v⟩ := by
    rw [d5, appendState_store_self, appendRec_fresh hfreshci hadm]
  have hpRec : (spliceState (appendState s k v) (bumpOffset s) p b1).store p =
      { s.store p with next := bumpOffset s } := by
    rw [d6, hother p hpmem]
  have hbRec : (spliceState (appendState s k v) (bumpOffset s) p b1).store b1 =
      { s.store b1 with prev := bumpOffset s } := by
    rw [d7, hother b1 hbmem]
  have hoth2 : ∀ j, j ≠ bumpOffset s → j ≠ p → j ≠ b1 →
      (spliceState (appendState s k v) (bumpOffset s) p b1).store j =
        (appendState s k v).store j := d8
  have hmemstore : ∀ o ∈ c, o ≠ p → o ≠ b1 →
      (spliceState (appendState s k v) (bumpOffset s) p b1).store o = s.store o := by
    intro o ho h1 h2
    rw [hoth2 o (by have := hC.ub o ho; omega) h1 h2, hother o ho]
  have htk : ∀ o ∈ c,
      ((spliceState (appendState s k v) (bumpOffset s) p b1).store o).key =
        (s.store o).key := by
    intro o ho
    by_cases h1 : o = p
    · subst h1
      rw [hpRec]
      simp [Rec.key_def]
    · by_cases h2 : o = b1
      · subst h2
        rw [hbRec]
        simp [Rec.key_def]
      · rw [hmemstore o ho h1 h2]
  have Fnext : ∀ o, o ≠ p → o ≠ bumpOffset s →
      ((spliceState (appendState s k v) (bumpOffset s) p b1).store o).next =
        ((appendState s k v).store o).next := by
    intro o h1 h2
    by_cases h3 : o = b1
    · subst h3
      rw [d7]
    · rw [hoth2 o h2 h1 h3]
  have Fprev : ∀ o, o ≠ b1 → o ≠ bumpOffset s →
      ((spliceState (appendState s k v) (bumpOffset s) p b1).store o).prev =
        ((appendState s k v).store o).prev := by
    intro o h1 h2
    by_cases h3 : o = p
    · subst h3
      rw [d6]
    · rw [hoth2 o h2 h3 h1]
  refine ⟨⟨?_, ?_, ?_, ?_, ?_⟩, by rw [d1]; simp, by rw [d2]; simp,
    by rw [d3]; simp, by rw [d4]; simp, hciRec, ?_⟩
  · -- linked
    refine links_splice hCu.linked hc (by rw [d1]) (by rw [d2]) Fnext Fprev
      (by rw [hpRec]) (by rw [hciRec]) (by rw [hciRec]) (by rw [hbRec])
      hci24 hpbne hpA hbA hpB hbB ?_
    intro o ho
    have := hC.ub o ho
    omega
  · -- nodup
    have hciA : bumpOffset s ∉ A := by
      intro hmem
      have := hC.ub _ (hc ▸ List.mem_append_left _ hmem)
      omega
    have hciB : bumpOffset s ∉ B := by
      intro hmem
      have := hC.ub _ (hc ▸ List.mem_append_right _
        (List.mem_cons_of_mem _ (List.mem_cons_of_mem _ hmem)))
      omega
    rw [List.nodup_append]
    refine ⟨nodA, ?_, ?_⟩
    · rw [List.nodup_cons]
      refine ⟨?_, ?_⟩
      · intro hmem
        rcases List.mem_cons.1 hmem with heq | hmem
        · exact hcip.symm (by omega)
        · rcases List.mem_cons.1 hmem with heq | hmem
          · exact hpbne heq
          · exact hpB hmem
      · rw [List.nodup_cons]
        refine ⟨?_, (List.nodup_cons.1 nodPB).2⟩
        intro hmem
        rcases List.mem_cons.1 hmem with heq | hmem
        · exact hcib heq
        · have := hC.ub _ (hc ▸ List.mem_append_right _
            (List.mem_cons_of_mem _ (List.mem_cons_of_mem _ hmem)))
          omega
    · intro x hx
      intro hmem
      rcases List.mem_cons.1 hmem with heq | hmem
      · exact disjA hx (heq ▸ List.mem_cons_self ..)
      · rcases List.mem_cons.1 hmem with heq | hmem
        · subst heq
          exact hciA hx
        · exact disjA hx (List.mem_cons_of_mem _ hmem)
  · -- upper bound
    intro o ho
    rw [d3]
    simp only [appendState_lastInserted]
    rcases List.mem_append.1 ho with ho | ho
    · have := hC.ub o (hc ▸ List.mem_append_left _ ho)
      omega
    · rcases List.mem_cons.1 ho with rfl | ho
      · omega
      · rcases List.mem_cons.1 ho with rfl | ho
        · omega
        · have := hC.ub o (hc ▸ List.mem_append_right _ (by
            rcases List.mem_cons.1 ho with rfl | ho
            · simp
            · exact List.mem_cons_of_mem _ (List.mem_cons_of_mem _ ho)))
          omega
  · -- sized
    intro o ho
    rcases List.mem_append.1 ho with hoA | hoR
    · have hoc : o ∈ c := hc ▸ List.mem_append_left _ hoA
      have h1 : o ≠ p := fun heq => hpA (heq ▸ hoA)
      have h2 : o ≠ b1 := fun heq => hbA (heq ▸ hoA)
      rw [hmemstore o hoc h1 h2]
      exact hC.sized o hoc
    · rcases List.mem_cons.1 hoR with rfl | hoR
      · rw [hpRec]
        exact wellSized_set_next.2 (hC.sized _ hpmem)
      · rcases List.mem_cons.1 hoR with rfl | hoR
        · rw [hciRec]
          have := hadm
          unfold KVAdm at this
          simp at this
          refine ⟨by simp, ?_⟩
          unfold recSize
          simp
          omega
        · rcases List.mem_cons.1 hoR with rfl | hoR
          · rw [hbRec]
            exact wellSized_set_prev.2 (hC.sized _ hbmem)
          · have hoc : o ∈ c := hc ▸ List.mem_append_right _
              (List.mem_cons_of_mem _ (List.mem_cons_of_mem _ hoR))
            have h1 : o ≠ p := fun heq => hpB (heq ▸ hoR)
            have h2 : o ≠ b1 := fun heq => hbB (heq ▸ hoR)
            rw [hmemstore o hoc h1 h2]
            exact hC.sized o hoc
  · -- sorted
    have hmapA : chainKeys (spliceState (appendState s k v) (bumpOffset s) p b1) A
        = chainKeys s A := by
      unfold chainKeys
      refine List.map_congr_left ?_
      intro o hoA
      exact htk o (hc ▸ List.mem_append_left _ hoA)
    have hmapB : chainKeys (spliceState (appendState s k v) (bumpOffset s) p b1) B
        = chainKeys s B := by
      unfold chainKeys
      refine List.map_congr_left ?_
      intro o hoB
      exact htk o (hc ▸ List.mem_append_right _
        (List.mem_cons_of_mem _ (List.mem_cons_of_mem _ hoB)))
    have hkp : ((spliceState (appendState s k v) (bumpOffset s) p b1).store p).key
        = (s.store p).key := htk p hpmem
    have hkb : ((spliceState (appendState s k v) (bumpOffset s) p b1).store b1).key
        = (s.store b1).key := htk b1 hbmem
    have hkc : ((spliceState (appendState s k v) (bumpOffset s) p b1).store
        (bumpOffset s)).key = k := by
      rw [hciRec, Rec.key_mk, List.take_left]
    have hsrc := hC.sorted
    rw [hc] at hsrc
    unfold chainKeys at hsrc ⊢
    simp only [List.map_append, List.map_cons] at hsrc ⊢
    rw [hkp, hkb, hkc]
    unfold chainKeys at hmapA hmapB
    rw [hmapA, hmapB]
    rw [List.append_cons _ ((s.store p).key), keysSorted_append] at hsrc ⊢
    obtain ⟨S1, S2, S3⟩ := hsrc
    refine ⟨S1, ?_, ?_⟩
    · rw [keysSorted_cons_cons_iff]
      refine ⟨?_, S2⟩
      rcases h : bcmp k ((s.store b1).key) with _ | _ | _
      · simp
      · simp
      · exact absurd h hgeb1
    · intro x hx y hy
      rw [List.getLast?_concat] at hx
      simp at hx hy
      subst hx
      subst hy
      rw [hlt]
      simp
  · -- fresh
    intro j hj
    rw [hoth2 j (by omega) (by omega) (by omega),
      appendState_store_other s k v (by omega : j ≠ bumpOffset s)]
    exact hwf.fresh j (by omega)

theorem firstState_ok {s : LM} {k v : List Nat}
    (hfresh : ∀ j, s.lastInserted < j → s.store j = emptyRec)
    (hli : s.lastInserted = 0) (hadm : KVAdm k v) :
    ChainOk (firstState s k v) [rootLength] ∧
    (firstState s k v).first = rootLength ∧
    (firstState s k v).last = rootLength ∧
    (firstState s k v).lastInserted = rootLength ∧
    (firstState s k v).size = s.size ∧
    (firstState s k v).store rootLength = ⟨0, 0, k.length, v.length, false, k ++ v⟩ ∧
    (∀ j, rootLength < j → (firstState s k v).store j = emptyRec) := by
  have hfresh24 : s.store rootLength = emptyRec := hfresh rootLength (by rw [hli]; simp)
  have hsr : (firstState s k v).store rootLength =
      ⟨0, 0, k.length, v.length, false, k ++ v⟩ := by
    simp only [firstState]
    rw [Function.update_same, hfresh24, hadm.klen, hadm.vlen]
    rfl
  have hso : ∀ j, j ≠ rootLength → (firstState s k v).store j = s.store j := by
    intro j hj
    simp only [firstState]
    rw [Function.update_noteq hj]
  refine ⟨⟨?_, by simp, ?_, ?_, ?_⟩, rfl, rfl, rfl, rfl, hsr, ?_⟩
  · rw [links_cons_iff]
    refine ⟨le_refl _, rfl, by rw [hsr], ?_⟩
    rw [linksFrom_nil_iff]
    refine ⟨by rw [hsr], rfl⟩
  · intro o ho
    rcases List.mem_singleton.1 ho with rfl
    exact le_refl _
  · intro o ho
    rcases List.mem_singleton.1 ho with rfl
    rw [hsr]
    have := hadm
    unfold KVAdm at this
    simp at this
    refine ⟨by simp, ?_⟩
    unfold recSize
    simp
    omega
  · exact rfl
  · intro j hj
    rw [hso j (by omega)]
    exact hfresh j (by omega)

theorem setMain_pos {s : LM} {key value : List Nat} (h : s.lastInserted ≠ 0) :
    setMain s key value =
      (if bcmp (readRec (appendState s key value) (appendState s key value).last).key
            key = .lt ∨
          (bcmp (readRec (appendState s key value)
              (appendState s key value).last).key key = .eq ∧
            (readRec (appendState s key value)
              (appendState s key value).last).removed = true) then
        (setTail (appendState s key value) (bumpOffset s), .ok)
      else if bcmp (readRec (appendState s key value)
            (appendState s key value).first).key key = .gt ∨
          (bcmp (readRec (appendState s key value)
              (appendState s key value).first).key key = .eq ∧
            (readRec (appendState s key value)
              (appendState s key value).first).removed = true) then
        (setHead (appendState s key value) (bumpOffset s), .ok)
      else walkGen (appendState s key value).size (appendState s key value)
        (bumpOffset s) key (appendState s key value).last) := by
  rw [setMain, if_neg h]

theorem setMain_zero {s : LM} {key value : List Nat} (h : s.lastInserted = 0) :
    setMain s key value = (firstState s key value, .ok) := by
  rw [setMain, if_pos h]

theorem wf_grow {s : LM} (hwf : WF s) (hli : s.lastInserted ≠ 0) (n : Nat) :
    WF { s with size := s.size + n } := by
  obtain ⟨c, hC⟩ := hwf.chain
  obtain ⟨w1, w2, w3, w4⟩ : rootLength ≤ s.lastInserted ∧ rootLength ≤ s.first ∧
      WellSized (s.store s.lastInserted) ∧
      s.lastInserted + recSize (s.store s.lastInserted) ≤ s.size := by
    rcases hwf.rootSize with ⟨h1, _⟩ | h
    · exact absurd h1 hli
    · exact h
  refine ⟨⟨c, ?_, hC.nodup, ?_, ?_, ?_⟩, ?_, ?_⟩
  · exact links_congr
      (show ({ s with size := s.size + n } : LM).first = s.first from rfl)
      (show ({ s with size := s.size + n } : LM).last = s.last from rfl)
      (fun o _ => rfl) (fun o _ => rfl) hC.linked
  · intro o ho
    exact hC.ub o ho
  · intro o ho
    exact hC.sized o ho
  · exact hC.sorted
  · exact Or.inr ⟨w1, w2, w3, by simp; omega⟩
  · intro j hj
    exact hwf.fresh j hj

theorem wellSized_new {k v : List Nat} (hadm : KVAdm k v) (p n : Nat) :
    WellSized ⟨p, n, k.length, v.length, false, k ++ v⟩ := by
  have := hadm
  unfold KVAdm at this
  simp at this
  refine ⟨by simp, ?_⟩
  unfold recSize
  simp
  omega

theorem recSize_new (k v : List Nat) (p n : Nat) :
    recSize ⟨p, n, k.length, v.length, false, k ++ v⟩ =
      recordLength + k.length + v.length := rfl

theorem setMain_wf {s : LM} {k v : List Nat} (hwf : WF s) (hadm : KVAdm k v)
    (hroom : s.lastInserted + constTruncateResize ≤ s.size) :
    WF (setMain s k v).1 ∧ (setMain s k v).1.size = s.size ∧
      ((setMain s k v).2 = .ok ∨ (setMain s k v).2 = .keyPresent) := by
  by_cases hli : s.lastInserted = 0
  · rw [setMain_zero hli]
    obtain ⟨hC1, f1, f2, f3, f4, f5, f6⟩ := firstState_ok hwf.fresh hli hadm
    have hKV := hadm
    unfold KVAdm at hKV
    refine ⟨⟨⟨[rootLength], hC1⟩, ?_, ?_⟩, f4, Or.inl rfl⟩
    · refine Or.inr ⟨by rw [f3], by rw [f1], ?_, ?_⟩
      · rw [f3, f5]
        exact wellSized_new hadm 0 0
      · rw [f3, f5, f4, recSize_new]
        rw [hli] at hroom
        unfold constTruncateResize at hroom
        simp at hKV ⊢
        omega
    · intro j hj
      rw [f3] at hj
      exact f6 j hj
  · obtain ⟨c, hC⟩ := hwf.chain
    obtain ⟨w1, w2, w3, w4⟩ : rootLength ≤ s.lastInserted ∧ rootLength ≤ s.first ∧
        WellSized (s.store s.lastInserted) ∧
        s.lastInserted + recSize (s.store s.lastInserted) ≤ s.size := by
      rcases hwf.rootSize with ⟨h1, _⟩ | h
      · exact absurd h1 hli
      · exact h
    have hKV := hadm
    unfold KVAdm at hKV
    have hlt' : s.lastInserted < bumpOffset s := by
      have := bumpOffset_gt hli w3
      simp at this
      omega
    have hciBound : bumpOffset s + recordLength + k.length + v.length ≤ s.size := by
      rw [bumpOffset_eq hli w3]
      have h32 := w3.2
      unfold constTruncateResize at hroom
      simp only [recordLength_eq] at *
      omega
    obtain ⟨hCu, hother⟩ := @appendState_chainOk s c k v hC hlt'
    have hcne : c ≠ [] := by
      intro hceq
      rw [hceq] at hC
      obtain ⟨hfi, _⟩ := links_nil_iff.1 hC.linked
      rw [hfi] at w2
      simp at w2
    have hlmem : s.last ∈ c := by
      rcases hc : c with _ | ⟨a, r⟩
      · exact absurd hc hcne
      · rw [hc] at hC
        obtain ⟨_, _, _, hfrom⟩ := links_cons_iff.1 hC.linked
        rw [(linksFrom_last hfrom).1]
        exact chainEnd_mem a r
    have hfmem : s.first ∈ c := by
      rcases hc : c with _ | ⟨a, r⟩
      · exact absurd hc hcne
      · rw [hc] at hC
        rw [(links_cons_iff.1 hC.linked).2.1]
        exact List.mem_cons_self ..
    have hl24 : rootLength ≤ s.last := links_lb hC.linked _ hlmem
    have hl0 : s.last ≠ 0 := by simp at hl24; omega
    have hf24 : rootLength ≤ s.first := w2
    have hf0 : s.first ≠ 0 := by simp at hf24; omega
    have hconvL : readRec (appendState s k v) (appendState s k v).last =
        s.store s.last := by
      rw [appendState_last, readRec_pos hl0]
      exact hother s.last hlmem
    have hconvF : readRec (appendState s k v) (appendState s k v).first =
        s.store s.first := by
      rw [appendState_first, readRec_pos hf0]
      exact hother s.first hfmem
    rw [setMain_pos hli, hconvL, hconvF]
    by_cases hT : bcmp (s.store s.last).key k = .lt ∨
        (bcmp (s.store s.last).key k = .eq ∧ (s.store s.last).removed = true)
    · rw [if_pos hT]
      obtain ⟨t1, t2, t3, t4, t5, t6, t7⟩ := setTail_ok hC hwf hli hadm hT
      refine ⟨⟨⟨c ++ [bumpOffset s], t1⟩, ?_, ?_⟩, t5, Or.inl rfl⟩
      · refine Or.inr ⟨?_, ?_, ?_, ?_⟩
        · rw [t4]
          simp only [rootLength_eq] at w1 ⊢
          omega
        · rw [t2]
          exact w2
        · rw [t4, t6]
          exact wellSized_new hadm s.last 0
        · rw [t4, t6, t5, recSize_new]
          omega
      · intro j hj
        rw [t4] at hj
        exact t7 j hj
    · rw [if_neg hT]
      by_cases hH : bcmp (s.store s.first).key k = .gt ∨
          (bcmp (s.store s.first).key k = .eq ∧ (s.store s.first).removed = true)
      · rw [if_pos hH]
        obtain ⟨t1, t2, t3, t4, t5, t6, t7⟩ := setHead_ok hC hwf hli hadm hH
        refine ⟨⟨⟨bumpOffset s :: c, t1⟩, ?_, ?_⟩, t5, Or.inl rfl⟩
        · refine Or.inr ⟨?_, ?_, ?_, ?_⟩
          · rw [t4]
            simp only [rootLength_eq] at w1 ⊢
            omega
          · rw [t2]
            simp only [rootLength_eq] at w1 ⊢
            omega
          · rw [t4, t6]
            exact wellSized_new hadm 0 s.first
          · rw [t4, t6, t5, recSize_new]
            omega
        · intro j hj
          rw [t4] at hj
          exact t7 j hj
      · rw [if_neg hH]
        have htailU : ¬(bcmp ((appendState s k v).store
              (appendState s k v).last).key k = .lt ∨
            (bcmp ((appendState s k v).store (appendState s k v).last).key k = .eq ∧
              ((appendState s k v).store (appendState s k v).last).removed = true)) := by
          rw [appendState_last, hother s.last hlmem]
          exact hT
        have hheadU : ¬(bcmp ((appendState s k v).store
              (appendState s k v).first).key k = .gt ∨
            (bcmp ((appendState s k v).store (appendState s k v).first).key k = .eq ∧
              ((appendState s k v).store (appendState s k v).first).removed = true)) := by
          rw [appendState_first, hother s.first hfmem]
          exact hH
        have hdecomp : c = c.dropLast ++ [c.getLast hcne] :=
          (List.dropLast_append_getLast hcne).symm
        have hlastEq : s.last = c.getLast hcne := by
          have := @links_last_eq (appendState s k v) c c.dropLast (c.getLast hcne)
            hCu.linked hdecomp
          simpa using this
        have hclen : c.length ≤ s.lastInserted :=
          nodup_bounded_length hC.nodup (links_lb hC.linked) hC.ub
        have hflen : c.dropLast.length < (appendState s k v).size := by
          simp only [appendState_size, List.length_dropLast]
          unfold constTruncateResize at hroom
          omega
        have hwalk := @walkGen_aux (appendState s k v) (bumpOffset s) k c
          hCu.linked htailU hheadU c.dropLast (c.getLast hcne) []
          (appendState s k v).size hdecomp (by intro x hx; cases hx) hflen
        have hcall : walkGen (appendState s k v).size (appendState s k v)
            (bumpOffset s) k (appendState s k v).last =
            walkGen (appendState s k v).size (appendState s k v)
              (bumpOffset s) k (c.getLast hcne) := by
          rw [appendState_last, hlastEq]
        rcases hwalk with ⟨heq, hex⟩ | ⟨A', p', b1', B', hc2, hlt2, hsk2, heq2⟩
        · rw [hcall, heq]
          refine ⟨⟨⟨c, hCu⟩, ?_, ?_⟩, by simp, Or.inr rfl⟩
          · refine Or.inr ⟨?_, ?_, ?_, ?_⟩
            · simp only [appendState_lastInserted, rootLength_eq] at w1 ⊢
              omega
            · simp only [appendState_first]
              exact w2
            · simp only [appendState_lastInserted]
              rw [appendState_store_self]
              rw [appendRec_fresh (hwf.fresh _ hlt') hadm]
              exact wellSized_new hadm 0 0
            · simp only [appendState_lastInserted, appendState_size]
              rw [appendState_store_self, appendRec_fresh (hwf.fresh _ hlt') hadm,
                recSize_new]
              omega
          · intro j hj
            simp only [appendState_lastInserted] at hj
            rw [appendState_store_other s k v (by omega : j ≠ bumpOffset s)]
            exact hwf.fresh j (by omega)
        · have hpmem : p' ∈ c := by
            rw [hc2]
            exact List.mem_append_right _ (List.mem_cons_self ..)
          have hbmem : b1' ∈ c := by
            rw [hc2]
            exact List.mem_append_right _ (by simp)
          have hlt2' : bcmp (s.store p').key k = .lt := by
            rw [← hother p' hpmem]
            exact hlt2
          have hgeb1 : bcmp k (s.store b1').key ≠ .gt := by
            have := hsk2 b1' (List.mem_cons_self ..)
            unfold SkipRec at this
            rw [hother b1' hbmem] at this
            rcases this with h | h
            · rw [bcmp_gt_iff_lt] at h
              rw [h]
              simp
            · have heqk := bcmp_eq_iff.1 h.1
              rw [← heqk, bcmp_refl]
              simp
          obtain ⟨t1, t2, t3, t4, t5, t6, t7⟩ :=
            splice_ok hC hwf hli hadm hc2 hlt2' hgeb1
          rw [hcall, heq2]
          refine ⟨⟨⟨A' ++ p' :: bumpOffset s :: b1' :: B', t1⟩, ?_, ?_⟩, t5,
            Or.inl rfl⟩
          · refine Or.inr ⟨?_, ?_, ?_, ?_⟩
            · rw [t4]
              simp only [rootLength_eq] at w1 ⊢
              omega
            · rw [t2]
              exact w2
            · rw [t4, t6]
              exact wellSized_new hadm p' b1'
            · rw [t4, t6, t5, recSize_new]
              omega
          · intro j hj
            rw [t4] at hj
            exact t7 j hj

theorem setOp_wf {s : LM} (g : Bool) {k v : List Nat} (hwf : WF s)
    (hadm : KVAdm k v) : WF (setOp g s k v).1 := by
  unfold setOp
  by_cases hg : s.lastInserted + constTruncateResize > s.size
  · rw [if_pos hg]
    cases g with
    | false =>
      simp only [Bool.false_eq_true, if_false]
      exact hwf
    | true =>
      simp only [if_true]
      by_cases hli : s.lastInserted = 0
      · obtain ⟨z1, z2, z3, z4⟩ : s.lastInserted = 0 ∧ s.first = 0 ∧ s.last = 0 ∧
            s.size = rootLength := by
          rcases hwf.rootSize with h | ⟨h1, _⟩
          · exact h
          · rw [hli] at h1
            simp at h1
        rw [setMain_zero
          (show ({ s with size := s.size + constTruncateResize } : LM).lastInserted
            = 0 from hli)]
        obtain ⟨hC1, f1, f2, f3, f4, f5, f6⟩ :=
          @firstState_ok { s with size := s.size + constTruncateResize } k v
            (fun j hj => hwf.fresh j hj) hli hadm
        have hKV := hadm
        unfold KVAdm at hKV
        refine ⟨⟨[rootLength], hC1⟩, ?_, ?_⟩
        · refine Or.inr ⟨by rw [f3], by rw [f1], ?_, ?_⟩
          · rw [f3, f5]
            exact wellSized_new hadm 0 0
          · rw [f3, f5, f4, recSize_new]
            show rootLength + _ ≤ s.size + constTruncateResize
            rw [z4]
            unfold constTruncateResize
            simp at hKV ⊢
            omega
        · intro j hj
          rw [f3] at hj
          exact f6 j hj
      · have hle : s.lastInserted ≤ s.size := by
          rcases hwf.rootSize with ⟨h1, _⟩ | ⟨_, _, _, h4⟩
          · exact absurd h1 hli
          · omega
        have hwfg := wf_grow hwf hli constTruncateResize
        have hroomg : ({ s with size := s.size + constTruncateResize } : LM).lastInserted
            + constTruncateResize ≤
            ({ s with size := s.size + constTruncateResize } : LM).size := by
          show s.lastInserted + constTruncateResize ≤ s.size + constTruncateResize
          omega
        exact (setMain_wf hwfg hadm hroomg).1
  · rw [if_neg hg]
    exact (setMain_wf hwf hadm (by omega)).1

theorem init_wf : WF initLM := by
  refine ⟨⟨[], ?_, List.nodup_nil, ?_, ?_, ?_⟩, Or.inl ⟨rfl, rfl, rfl, rfl⟩, ?_⟩
  · rfl
  · intro o ho; cases ho
  · intro o ho; cases ho
  · rfl
  · intro j _
    rfl

theorem reach_wf {s : LM} (h : Reach s) : WF s := by
  induction h with
  | init => exact init_wf
  | set g hr hadm ih => exact setOp_wf g ih hadm
  | rem hr hadm hrem ih =>
    rename_i s1 s2 k
    obtain ⟨c, hC⟩ := ih.chain
    have hsz : s1.lastInserted < s1.size := by
      rcases ih.rootSize with ⟨h1, _, _, h4⟩ | ⟨_, _, _, h4⟩
      · rw [h1, h4]
        simp
      · have : rootLength ≤ recSize (s1.store s1.lastInserted) := by
          unfold recSize
          simp only [rootLength_eq, recordLength_eq]
          omega
        simp at this
        omega
    have h0 : 0 < s1.size := by omega
    obtain ⟨s', hs', hf, hl, hli, hsze, hst⟩ := removeOp_spec hC hsz h0 hadm
    rw [hrem] at hs'
    obtain rfl := Option.some.inj hs'
    exact wf_of_remove hC hf hl hli hsze hst ih

/-! ### Helpers for the claim theorems -/

attribute [ext] LM

theorem getAux_succ (f : Nat) (s : LM) (key : List Nat) (i : Nat) :
    getAux (f + 1) s key i =
      if bcmp (readRec s i).key key = .gt then .notFound
      else if bcmp (readRec s i).key key = .eq ∧ (readRec s i).removed = false then
        .found (readRec s i).value
      else if (readRec s i).next = 0 then .notFound
      else getAux f s key (readRec s i).next := rfl

theorem mark_id {r : Rec} (h : r.removed = true) :
    ({ r with removed := true } : Rec) = r := by
  cases r
  simp_all

theorem chainOk_congr {s t : LM} {c : List Nat} (hC : ChainOk s c)
    (hf : t.first = s.first) (hl : t.last = s.last)
    (hli : t.lastInserted = s.lastInserted)
    (hnext : ∀ o ∈ c, (t.store o).next = (s.store o).next)
    (hprev : ∀ o ∈ c, (t.store o).prev = (s.store o).prev)
    (hkey : ∀ o ∈ c, (t.store o).key = (s.store o).key)
    (hsized : ∀ o ∈ c, WellSized (s.store o) → WellSized (t.store o)) :
    ChainOk t c := by
  refine ⟨links_congr hf hl hnext hprev hC.linked, hC.nodup, ?_, ?_, ?_⟩
  · intro o ho
    rw [hli]
    exact hC.ub o ho
  · intro o ho
    exact hsized o ho (hC.sized o ho)
  · rw [chainKeys_congr hkey]
    exact hC.sorted

theorem specGet_skip {k : List Nat} :
    ∀ {recs rest : List Rec},
      (∀ r ∈ recs, bcmp r.key k ≠ .gt ∧ (bcmp r.key k = .eq → r.removed = true)) →
      specGet (recs ++ rest) k = specGet rest k := by
  intro recs
  induction recs with
  | nil => intro rest _; rfl
  | cons r recs ih =>
    intro rest h
    obtain ⟨h1, h2⟩ := h r (List.mem_cons_self ..)
    rw [List.cons_append]
    show specGet (r :: (recs ++ rest)) k = _
    rw [specGet, if_neg h1, if_neg, ih (fun x hx => h x (List.mem_cons_of_mem _ hx))]
    rintro ⟨hq, hrm⟩
    rw [h2 hq] at hrm
    cases hrm

theorem specGet_found {k v : List Nat} {p n : Nat} {rest : List Rec} :
    specGet ((⟨p, n, k.length, v.length, false, k ++ v⟩ : Rec) :: rest) k =
      .found v := by
  rw [specGet]
  have hkey : (⟨p, n, k.length, v.length, false, k ++ v⟩ : Rec).key = k := by
    rw [Rec.key_mk, List.take_left]
  rw [hkey, bcmp_refl, if_neg (by intro h; cases h), if_pos ⟨rfl, rfl⟩,
    Rec.value_mk, List.drop_left, List.take_length]

theorem suffix_decomp_unique {α : Type} {P : α → Prop} :
    ∀ {c A₁ A₂ : List α} {p₁ p₂ : α} {T₁ T₂ : List α},
      c = A₁ ++ p₁ :: T₁ → c = A₂ ++ p₂ :: T₂ →
      ¬P p₁ → ¬P p₂ → (∀ x ∈ T₁, P x) → (∀ x ∈ T₂, P x) →
      p₁ = p₂ ∧ T₁ = T₂ := by
  have key : ∀ {c A₁ A₂ : List α} {p₁ p₂ : α} {T₁ T₂ : List α},
      c = A₁ ++ p₁ :: T₁ → c = A₂ ++ p₂ :: T₂ →
      ¬P p₁ → (∀ x ∈ T₂, P x) → T₁.length ≤ T₂.length →
      p₁ = p₂ ∧ T₁ = T₂ := by
    intro c A₁ A₂ p₁ p₂ T₁ T₂ h1 h2 hp1 hT2 hlen
    have hsuf1 : (p₁ :: T₁) <:+ c := ⟨A₁, h1.symm⟩
    have hsuf2 : (p₂ :: T₂) <:+ c := ⟨A₂, h2.symm⟩
    rcases Nat.lt_or_ge T₁.length T₂.length with hlt | hge
    · have hsuf2' : T₂ <:+ c := (List.suffix_cons p₂ T₂).trans hsuf2
      have hsub : (p₁ :: T₁) <:+ T₂ := by
        have hpre1 : (p₁ :: T₁).reverse <+: c.reverse := List.reverse_prefix.2 hsuf1
        have hpre2 : T₂.reverse <+: c.reverse := List.reverse_prefix.2 hsuf2'
        have h' := List.prefix_of_prefix_length_le hpre1 hpre2 (by simp; omega)
        exact List.reverse_prefix.1 h'
      have : p₁ ∈ T₂ := hsub.subset (List.mem_cons_self ..)
      exact absurd (hT2 _ this) hp1
    · have hlene : T₁.length = T₂.length := by omega
      have hlc : (p₁ :: T₁).length = (p₂ :: T₂).length := by simp [hlene]
      have heq : p₁ :: T₁ = p₂ :: T₂ := by
        obtain ⟨l1, e1⟩ := hsuf1
        obtain ⟨l2, e2⟩ := hsuf2
        have := e1.trans e2.symm
        obtain ⟨-, h⟩ := List.append_inj' this (by simpa using hlc)
        exact h
      obtain ⟨hpe, hTe⟩ := List.cons.injEq .. ▸ heq
      exact ⟨hpe, hTe⟩
  intro c A₁ A₂ p₁ p₂ T₁ T₂ h1 h2 hp1 hp2 hT1 hT2
  rcases Nat.le_total T₁.length T₂.length with hle | hle
  · exact key h1 h2 hp1 hT2 hle
  · obtain ⟨hpe, hTe⟩ := key h2 h1 hp2 hT1 hle
    exact ⟨hpe.symm, hTe.symm⟩

/-! ### Claim C5 -/

/-- C5: when a `Set` call triggers capacity growth and the file
extension (truncate) step fails, `Set` aborts with `GrowthFailed`
(`ErrFileTruncateError`) and the state — root fields `first`, `last`,
`lastInserted`, every record, and the capacity — is exactly the state
before the call, so the map remains usable at its prior capacity. -/
theorem c5_growth_failure_rollback (s : LM) (k v : List Nat)
    (htrig : s.lastInserted + constTruncateResize > s.size) :
    setOp false s k v = (s, .growthFailed) := by
  unfold setOp
  rw [if_pos htrig]
  simp

theorem c5_growth_failure_rollback_witness :
    initLM.lastInserted + constTruncateResize > initLM.size ∧
      setOp false initLM [1] [2] = (initLM, .growthFailed) :=
  ⟨by decide, c5_growth_failure_rollback initLM [1] [2] (by decide)⟩

/-! ### Claim C9 -/

/-- The byte offset at which `Cursor.Key` starts reading the key bytes
of the record whose header starts at `off` (list.go line 501:
`start := c.index + int(recordLength)`). -/
def keyStart (off : Nat) : Nat := off + recordLength

/-- C9 counterexample: the key bytes do not begin at the record's offset
plus the summed field widths 8+8+2+2+1 = 21; `unsafe.Sizeof(record{})`
rounds the struct up to 8-byte alignment, so they begin at offset
plus 24. -/
theorem c9_counterexample :
    keyStart 0 = 24 ∧ headerFieldWidths = 21 ∧ keyStart 0 ≠ 0 + headerFieldWidths := by
  refine ⟨rfl, rfl, ?_⟩
  decide

/-- C9 as amended: the header fields are immediately followed by the key
and value bytes in the sense that `Cursor.Key` reads from the fixed
offset `recordLength` past the record start, but `recordLength` is 24,
not 21: Go inserts 3 trailing padding bytes between the `removed` field
and the key payload. -/
theorem c9_key_offset (off : Nat) :
    keyStart off = off + headerFieldWidths + 3 ∧
      recordLength = 24 ∧ headerFieldWidths = 21 ∧
      recordLength = goStructSize recordFields := by
  refine ⟨?_, rfl, rfl, rfl⟩
  unfold keyStart headerFieldWidths
  simp only [recordLength_eq]

theorem size_pos {s : LM} (hwf : WF s) : 0 < s.size := by
  rcases hwf.rootSize with ⟨_, _, _, h4⟩ | ⟨_, _, _, h4⟩
  · rw [h4]
    simp
  · have h24 : rootLength ≤ recSize (s.store s.lastInserted) := by
      unfold recSize
      simp only [rootLength_eq, recordLength_eq]
      omega
    simp at h24
    omega

theorem li_lt_size {s : LM} (hwf : WF s) : s.lastInserted < s.size := by
  rcases hwf.rootSize with ⟨h1, _, _, h4⟩ | ⟨_, _, _, h4⟩
  · rw [h1, h4]
    simp
  · have h24 : rootLength ≤ recSize (s.store s.lastInserted) := by
      unfold recSize
      simp only [rootLength_eq, recordLength_eq]
      omega
    simp at h24
    omega

/-! ### Claim C8 -/

/-- C8 counterexample: on the empty map, `Get` of the empty key does not
return `NotFound`: the cursor at `root.first = 0` decodes the zero root
bytes as a live record with empty key and empty value, so `Get` returns
that empty value with a nil error. -/
theorem c8_counterexample :
    getOp initLM [] = .found [] ∧ (GetRes.found [] ≠ .notFound) := by
  refine ⟨by decide, by decide⟩

/-- C8 as amended: on the empty map (no successful Set ever, so
`lastInserted = 0`), `Get(k)` returns `NotFound` for every nonempty key
`k`; for the empty key it instead returns an empty value (see the
counterexample). -/
theorem c8_empty_map_get {k : List Nat} (hk : k ≠ []) :
    getOp initLM k = .notFound := by
  cases k with
  | nil => exact absurd rfl hk
  | cons k0 ks =>
    show getAux initLM.size initLM (k0 :: ks) initLM.first = _
    rw [show initLM.size = 23 + 1 from rfl, show initLM.first = 0 from rfl,
      getAux_succ, readRec_zero, rootRec_key, bcmp_nil_cons]
    rw [if_neg (by intro h; cases h), if_neg (by rintro ⟨h, _⟩; cases h),
      if_pos (show (rootRec initLM).next = 0 from rfl)]

theorem c8_empty_map_get_witness : getOp initLM [0] = .notFound :=
  c8_empty_map_get (by decide)

/-! ### Claim C2 -/

/-- C2 counterexample: on the (reachable) empty map, the walk described
by the claim visits no records and must report `NotFound` for every key
(`specGet` on the empty record list), yet `Get` of the empty key
returns an empty value with a nil error. -/
theorem c2_counterexample :
    getOp initLM [] = .found [] ∧ specGet ([] : List Rec) [] = .notFound ∧
      (GetRes.found [] ≠ GetRes.notFound) := by
  refine ⟨by decide, rfl, by decide⟩

/-- C2 as amended: for every reachable state and key `k`, provided the
map is nonempty or `k` is nonempty, `Get` computes exactly the walk the
claim describes over the chain's records (`specGet`): the value of the
first live record whose key equals `k`, `NotFound` as soon as a
strictly greater key is seen or the chain ends, walking past tombstoned
matches and smaller keys.  On the empty map with the empty key the code
instead returns the zero root bytes' empty value. -/
theorem c2_get_refines_walk {s : LM} {k : List Nat} (hr : Reach s)
    (hadm : s.first ≠ 0 ∨ k ≠ []) :
    ∃ c, ChainOk s c ∧ getOp s k = specGet (c.map s.store) k := by
  have hwf := reach_wf hr
  obtain ⟨c, hC⟩ := hwf.chain
  refine ⟨c, hC, ?_⟩
  cases c with
  | nil =>
    obtain ⟨hfi, hla⟩ := links_nil_iff.1 hC.linked
    have hk : k ≠ [] := by
      rcases hadm with h | h
      · exact absurd hfi h
      · exact h
    cases k with
    | nil => exact absurd rfl hk
    | cons k0 ks =>
      obtain ⟨m, hm⟩ : ∃ m, s.size = m + 1 := ⟨s.size - 1, by
        have := size_pos hwf
        omega⟩
      show getAux s.size s (k0 :: ks) s.first = _
      rw [hfi, hm, getAux_succ, readRec_zero, rootRec_key, bcmp_nil_cons]
      rw [if_neg (by intro h; cases h), if_neg (by rintro ⟨h, _⟩; cases h),
        if_pos (show (rootRec s).next = 0 from hla)]
      rfl
  | cons a r =>
    obtain ⟨ha24, hfi, hpa, hfrom⟩ := links_cons_iff.1 hC.linked
    have hlen : (a :: r).length ≤ s.lastInserted :=
      nodup_bounded_length hC.nodup (links_lb hC.linked) hC.ub
    have hLIsz : s.lastInserted < s.size := li_lt_size hwf
    show getAux s.size s k s.first = _
    rw [hfi]
    refine getAux_chain r a s.size ha24 hfrom ?_
    simp at hlen
    omega

theorem c2_get_refines_walk_witness :
    ∃ c, ChainOk ((setOp true initLM [97] [1]).1) c ∧
      getOp ((setOp true initLM [97] [1]).1) [97] =
        specGet (c.map ((setOp true initLM [97] [1]).1).store) [97] :=
  c2_get_refines_walk (Reach.set true Reach.init (by unfold KVAdm ; decide))
    (Or.inl (by decide))

/-! ### Claim C4 -/

/-- C4 counterexample: `Remove` of the empty key on the (reachable)
empty map — a key with no live record — does not leave the state
unchanged: the cursor at offset 0 matches the zero root bytes' empty
key and the write of the tombstone byte lands in byte 20 of the root,
setting bit 32 of `lastInserted`. -/
theorem c4_counterexample :
    (removeOp initLM []).map (fun t => t.lastInserted) = some 4294967296 ∧
      initLM.lastInserted = 0 := by
  refine ⟨by decide, rfl⟩

/-- C4 as amended: for every reachable state and key `k`, provided the
map is nonempty or `k` is nonempty, `Remove(k)` terminates, leaves the
root fields and capacity unchanged, sets the tombstone flag on every
chain record whose key equals `k` (the walk does not stop at the first
live match; under the chain invariants at most one such record is
live), never unlinks or reclaims anything, and when no live record with
key `k` exists the state is completely unchanged.  `Remove` of the
empty key on the empty map instead corrupts `lastInserted` (see the
counterexample). -/
theorem c4_remove_spec {s : LM} {k : List Nat} (hr : Reach s)
    (hadm : s.first ≠ 0 ∨ k ≠ []) :
    ∃ c s', ChainOk s c ∧ removeOp s k = some s' ∧
      s'.first = s.first ∧ s'.last = s.last ∧
      s'.lastInserted = s.lastInserted ∧ s'.size = s.size ∧
      (∀ j, s'.store j = if j ∈ c ∧ bcmp (s.store j).key k = .eq
        then { s.store j with removed := true } else s.store j) ∧
      ((∀ o ∈ c, bcmp (s.store o).key k = .eq → (s.store o).removed = true) →
        s' = s) := by
  have hwf := reach_wf hr
  obtain ⟨c, hC⟩ := hwf.chain
  obtain ⟨s', h1, h2, h3, h4, h5, h6⟩ :=
    removeOp_spec hC (li_lt_size hwf) (size_pos hwf) hadm
  refine ⟨c, s', hC, h1, h2, h3, h4, h5, h6, ?_⟩
  intro hall
  have hst : ∀ j, s'.store j = s.store j := by
    intro j
    rw [h6 j]
    split
    · rename_i hcond
      exact mark_id (hall _ hcond.1 hcond.2)
    · rfl
  exact LM.ext h2 h3 h4 (funext hst) h5

theorem c4_remove_spec_witness :
    ∃ c s', ChainOk ((setOp true initLM [97] [1]).1) c ∧
      removeOp ((setOp true initLM [97] [1]).1) [98] = some s' ∧
      s'.first = ((setOp true initLM [97] [1]).1).first ∧
      s'.last = ((setOp true initLM [97] [1]).1).last ∧
      s'.lastInserted = ((setOp true initLM [97] [1]).1).lastInserted ∧
      s'.size = ((setOp true initLM [97] [1]).1).size ∧
      (∀ j, s'.store j = if j ∈ c ∧
          bcmp (((setOp true initLM [97] [1]).1).store j).key [98] = .eq
        then { ((setOp true initLM [97] [1]).1).store j with removed := true }
        else ((setOp true initLM [97] [1]).1).store j) ∧
      ((∀ o ∈ c, bcmp (((setOp true initLM [97] [1]).1).store o).key [98] = .eq →
          (((setOp true initLM [97] [1]).1).store o).removed = true) →
        s' = (setOp true initLM [97] [1]).1) :=
  c4_remove_spec (Reach.set true Reach.init (by unfold KVAdm ; decide))
    (Or.inl (by decide))

/-! ### Claim C3 -/

/-- State after `Set("k","1")` on a fresh map (k = byte 107). -/
def bugS1 : LM := (setOp true initLM [107] [49]).1

/-- State after the subsequent `Remove("k")`. -/
def bugS2 : LM := (removeOp bugS1 [107]).getD initLM

/-- State after the subsequent `Set("k","2")` (appended after the
tombstoned first record via the tail fast path). -/
def bugS3 : LM := (setOp true bugS2 [107] [50]).1

/-- C3 is violated by the code: in the reachable state `bugS3` the key
`[107]` has a live record with value `[50]`, yet `Set([107],[51])`
returns success (nil error) via the head fast path — the first record
is a tombstoned duplicate, so the path links the new record before it
without ever seeing the live one — and a subsequent `Get` returns the
new value `[51]` instead of the original `[50]`.  The spec's duplicate
rejection property and its at-most-one-live-record invariant are both
broken. -/
theorem c3_duplicate_accept_bug :
    getOp bugS3 [107] = .found [50] ∧
    (bugS3.store 50).key = [107] ∧ (bugS3.store 50).removed = false ∧
    bugS3.first = 24 ∧ (bugS3.store 24).removed = true ∧
    (setOp true bugS3 [107] [51]).2 = .ok ∧
    getOp (setOp true bugS3 [107] [51]).1 [107] = .found [51] ∧
    ((setOp true bugS3 [107] [51]).1.store 50).removed = false := by
  refine ⟨by decide, by decide, by decide, by decide, by decide, by decide,
    by decide, by decide⟩

theorem bcmp_cons_lt {a b : Nat} (h : a < b) (as bs : List Nat) :
    bcmp (a :: as) (b :: bs) = .lt := by
  unfold bcmp
  rw [if_pos h]

/-! ### Claim C1 -/

/-- A key of exactly 65536 bytes: its stored `uint16` length wraps to 0. -/
def bigKey : List Nat := List.replicate 65536 122

/-- State after `Set([109],[118])` on a fresh map. -/
def c1S1 : LM := (setOp true initLM [109] [118]).1

/-- C1 counterexample: from the reachable one-record state `c1S1`
(single key `[109]`), `Set` of the 65536-byte key `bigKey` (every byte
122, lexicographically above `[109]`) succeeds via the tail fast path,
but the stored `uint16` key length wraps to 0, so the appended record's
key reads back as the empty key: the chain `[24, 50]` carries the key
sequence `[[109], []]`, which is not in non-decreasing `bytes.Compare`
order. -/
theorem c1_counterexample :
    Reach c1S1 ∧
    (setOp true c1S1 bigKey [119]).2 = .ok ∧
    links (setOp true c1S1 bigKey [119]).1 [24, 50] = true ∧
    chainKeys (setOp true c1S1 bigKey [119]).1 [24, 50] = [[109], []] ∧
    keysSorted [[109], []] = false := by
  have har : appendRec c1S1 bigKey [119] = Rec.mk 0 0 0 1 false (bigKey ++ [119]) := by
    unfold appendRec
    rw [show bumpOffset c1S1 = 50 from rfl, show c1S1.store 50 = emptyRec from rfl]
    rw [show bigKey.length % 65536 = 0 from by
      rw [show bigKey = List.replicate 65536 122 from rfl, List.length_replicate,
        Nat.mod_self]]
    rfl
  have hA : appendState c1S1 bigKey [119] =
      LM.mk 24 24 50
        (Function.update c1S1.store 50 (Rec.mk 0 0 0 1 false (bigKey ++ [119])))
        65560 := by
    unfold appendState
    rw [har, show bumpOffset c1S1 = 50 from rfl]
    exact LM.ext rfl rfl rfl rfl rfl
  have hlt : bcmp (readRec (appendState c1S1 bigKey [119])
      (appendState c1S1 bigKey [119]).last).key bigKey = Ordering.lt := by
    rw [show (appendState c1S1 bigKey [119]).last = 24 from rfl]
    rw [show readRec (appendState c1S1 bigKey [119]) 24 =
      Rec.mk 0 0 1 1 false [109, 118] from rfl]
    rw [show (Rec.mk 0 0 1 1 false [109, 118]).key = [109] from rfl]
    rw [show bigKey = List.replicate 65536 122 from rfl,
      show (65536 : Nat) = 65535 + 1 from rfl, List.replicate_succ]
    exact bcmp_cons_lt (by decide) _ _
  have hmain : setOp true c1S1 bigKey [119] =
      (setTail (appendState c1S1 bigKey [119]) (bumpOffset c1S1), .ok) := by
    unfold setOp
    rw [if_neg (by decide), setMain_pos (show c1S1.lastInserted ≠ 0 from by decide),
      if_pos (Or.inl hlt)]
  have hT : setTail (LM.mk 24 24 50
        (Function.update c1S1.store 50 (Rec.mk 0 0 0 1 false (bigKey ++ [119])))
        65560) 50 =
      LM.mk 24 50 50
        (Function.update (Function.update
          (Function.update c1S1.store 50 (Rec.mk 0 0 0 1 false (bigKey ++ [119])))
          24 (Rec.mk 0 50 1 1 false [109, 118]))
          50 (Rec.mk 24 0 0 1 false (bigKey ++ [119])))
        65560 := rfl
  have hs2 : setOp true c1S1 bigKey [119] =
      (LM.mk 24 50 50
        (Function.update (Function.update
          (Function.update c1S1.store 50 (Rec.mk 0 0 0 1 false (bigKey ++ [119])))
          24 (Rec.mk 0 50 1 1 false [109, 118]))
          50 (Rec.mk 24 0 0 1 false (bigKey ++ [119])))
        65560, .ok) := by
    rw [hmain, show bumpOffset c1S1 = 50 from rfl, hA, hT]
  refine ⟨Reach.set true Reach.init (by unfold KVAdm ; decide), ?_, ?_, ?_, by decide⟩
  · rw [hs2]
  · rw [hs2]
    decide
  · rw [hs2]
    decide

/-- C1 as amended: in every reachable state (sequential `Set`/`Remove`
calls whose records fit the `uint16` length fields, per `KVAdm`), the
records of the chain from `root.first` to `root.last` carry keys in
non-decreasing `bytes.Compare` order.  Without the size restriction the
order is broken (see the counterexample). -/
theorem c1_sorted_chain {s : LM} (hr : Reach s) :
    ∃ c, links s c = true ∧ keysSorted (chainKeys s c) = true := by
  obtain ⟨c, hC⟩ := (reach_wf hr).chain
  exact ⟨c, hC.linked, hC.sorted⟩

theorem c1_sorted_chain_witness :
    ∃ c, links (setOp true initLM [107] [118]).1 c = true ∧
      keysSorted (chainKeys (setOp true initLM [107] [118]).1 c) = true :=
  c1_sorted_chain (Reach.set true Reach.init (by unfold KVAdm ; decide))

theorem specGet_found_rec {k : List Nat} {r : Rec} {rest : List Rec}
    (hk : r.key = k) (hl : r.removed = false) :
    specGet (r :: rest) k = .found r.value := by
  rw [specGet, hk, bcmp_refl, if_neg (by intro h; cases h), if_pos ⟨rfl, hl⟩]

theorem getOp_found_of_chain {t : LM} {c1 : List Nat} {ci : Nat} {c2 : List Nat}
    {k v : List Nat}
    (hC : ChainOk t (c1 ++ ci :: c2)) (hlen : (c1 ++ ci :: c2).length < t.size)
    (hskip : ∀ o ∈ c1, bcmp ((t.store o)).key k ≠ .gt ∧
      (bcmp ((t.store o)).key k = .eq → (t.store o).removed = true))
    (hkey : (t.store ci).key = k) (hlive : (t.store ci).removed = false)
    (hval : (t.store ci).value = v) :
    getOp t k = .found v := by
  rcases hc : c1 ++ ci :: c2 with _ | ⟨a, r⟩
  · exact absurd hc (by simp)
  · have hlink : links t (a :: r) = true := by rw [← hc]; exact hC.linked
    obtain ⟨ha24, hfi, hpr, hfrom⟩ := links_cons_iff.1 hlink
    have hlen' : r.length < t.size := by
      rw [hc] at hlen
      simp only [List.length_cons] at hlen
      omega
    have hchain := @getAux_chain t k r a t.size ha24 hfrom hlen'
    have hs : ∀ rr ∈ c1.map t.store,
        bcmp rr.key k ≠ .gt ∧ (bcmp rr.key k = .eq → rr.removed = true) := by
      intro rr hrr
      obtain ⟨o, ho, rfl⟩ := List.mem_map.1 hrr
      exact hskip o ho
    show getAux t.size t k t.first = _
    rw [hfi, hchain, ← hc, List.map_append, List.map_cons,
      specGet_skip hs, specGet_found_rec hkey hlive, hval]

theorem chain_le_last {s : LM} {c : List Nat} (hC : ChainOk s c) (hcne : c ≠ []) :
    ∀ o ∈ c, bcmp ((s.store o)).key ((s.store s.last)).key ≠ .gt := by
  have hdecomp : c = c.dropLast ++ [c.getLast hcne] :=
    (List.dropLast_append_getLast hcne).symm
  have hlastEq : s.last = c.getLast hcne := links_last_eq hC.linked hdecomp
  have hsort : keysSorted (chainKeys s c.dropLast ++
      [(s.store (c.getLast hcne)).key]) = true := by
    have h1 : chainKeys s c = chainKeys s c.dropLast ++
        [(s.store (c.getLast hcne)).key] := by
      conv_lhs => rw [hdecomp]
      simp [chainKeys]
    rw [← h1]
    exact hC.sorted
  have hall := keysSorted_all_le_last hsort
  intro o ho
  rw [hlastEq]
  have hmem : o ∈ c.dropLast ++ [c.getLast hcne] := hdecomp ▸ ho
  rcases List.mem_append.1 hmem with hoD | hoL
  · exact hall _ (List.mem_map_of_mem _ hoD)
  · rcases List.mem_singleton.1 hoL with rfl
    rw [bcmp_refl]
    intro h
    cases h

theorem sorted_prefix_le {s : LM} {c A : List Nat} {p : Nat} {B : List Nat}
    (hC : ChainOk s c) (hc : c = A ++ p :: B) :
    ∀ o ∈ A, bcmp ((s.store o)).key ((s.store p)).key ≠ .gt := by
  have hsort : keysSorted ((chainKeys s A ++ [(s.store p).key]) ++
      chainKeys s B) = true := by
    have h1 : chainKeys s c = (chainKeys s A ++ [(s.store p).key]) ++
        chainKeys s B := by
      rw [hc]
      simp [chainKeys]
    rw [← h1]
    exact hC.sorted
  have hall := keysSorted_all_le_last (keysSorted_append.1 hsort).1
  intro o ho
  exact hall _ (List.mem_map_of_mem _ ho)

/-- When the key being inserted has no live duplicate in the chain, `Set`'s
main body (after the capacity check) succeeds by one of its three insertion
paths, and a `Get` of the key on the resulting state finds the new value. -/
theorem setMain_found {s : LM} {c : List Nat} {k v : List Nat}
    (hwf : WF s) (hC : ChainOk s c)
    (hadm : KVAdm k v) (hli0 : s.lastInserted ≠ 0)
    (hnolive : ∀ o ∈ c, bcmp ((s.store o)).key k = .eq →
      (s.store o).removed = true) :
    ∃ t, setMain s k v = (t, .ok) ∧ getOp t k = .found v := by
  obtain ⟨w1, w2, w3, w4⟩ : rootLength ≤ s.lastInserted ∧ rootLength ≤ s.first ∧
      WellSized (s.store s.lastInserted) ∧
      s.lastInserted + recSize (s.store s.lastInserted) ≤ s.size := by
    rcases hwf.rootSize with ⟨h1, _⟩ | h
    · exact absurd h1 hli0
    · exact h
  have hliSz : s.lastInserted + 24 ≤ s.size := by
    have : rootLength ≤ recSize (s.store s.lastInserted) := by
      unfold recSize
      simp only [rootLength_eq, recordLength_eq]
      omega
    simp only [rootLength_eq] at this
    omega
  have hlt' : s.lastInserted < bumpOffset s := by
    have := bumpOffset_gt hli0 w3
    simp at this
    omega
  obtain ⟨hCu, hother⟩ := @appendState_chainOk s c k v hC hlt'
  have hcne : c ≠ [] := by
    intro hceq
    rw [hceq] at hC
    obtain ⟨hfi, _⟩ := links_nil_iff.1 hC.linked
    rw [hfi] at w2
    simp at w2
  have hlmem : s.last ∈ c := by
    rcases hcc : c with _ | ⟨a, r⟩
    · exact absurd hcc hcne
    · rw [hcc] at hC
      obtain ⟨_, _, _, hfrom⟩ := links_cons_iff.1 hC.linked
      rw [(linksFrom_last hfrom).1]
      exact chainEnd_mem a r
  have hfmem : s.first ∈ c := by
    rcases hcc : c with _ | ⟨a, r⟩
    · exact absurd hcc hcne
    · rw [hcc] at hC
      rw [(links_cons_iff.1 hC.linked).2.1]
      exact List.mem_cons_self ..
  have hl24 : rootLength ≤ s.last := links_lb hC.linked _ hlmem
  have hl0 : s.last ≠ 0 := by simp at hl24; omega
  have hf0 : s.first ≠ 0 := by simp at w2; omega
  have hclen : c.length ≤ s.lastInserted :=
    nodup_bounded_length hC.nodup (links_lb hC.linked) hC.ub
  have hconvL : readRec (appendState s k v) (appendState s k v).last =
      s.store s.last := by
    rw [appendState_last, readRec_pos hl0]
    exact hother s.last hlmem
  have hconvF : readRec (appendState s k v) (appendState s k v).first =
      s.store s.first := by
    rw [appendState_first, readRec_pos hf0]
    exact hother s.first hfmem
  have hci0 : bumpOffset s ≠ 0 := by
    simp only [rootLength_eq] at w1
    omega
  rw [setMain_pos hli0, hconvL, hconvF]
  by_cases hT : bcmp ((s.store s.last)).key k = .lt ∨
      (bcmp ((s.store s.last)).key k = .eq ∧ (s.store s.last).removed = true)
  · rw [if_pos hT]
    obtain ⟨t1, t2, t3, t4, t5, t6, t7⟩ := setTail_ok hC hwf hli0 hadm hT
    refine ⟨_, rfl, ?_⟩
    have hLe := chain_le_last hC hcne
    have hciL : bumpOffset s ≠ (appendState s k v).last := by
      rw [appendState_last]
      intro he
      have := hC.ub _ hlmem
      omega
    obtain ⟨d1, d2, d3, d4, d5, d6, d7⟩ := @setTail_desc (appendState s k v)
      (bumpOffset s) (by rw [appendState_last]; exact hl0) hciL hci0
    have d5' : (setTail (appendState s k v) (bumpOffset s)).store s.last =
        { (appendState s k v).store s.last with next := bumpOffset s } := d5
    have d7' : ∀ j, j ≠ s.last → j ≠ bumpOffset s →
        (setTail (appendState s k v) (bumpOffset s)).store j =
          (appendState s k v).store j := fun j h1 h2 => d7 j h1 h2
    have hstore_c : ∀ o ∈ c,
        (setTail (appendState s k v) (bumpOffset s)).store o =
          if o = s.last then { s.store s.last with next := bumpOffset s }
          else s.store o := by
      intro o ho
      by_cases hoL : o = s.last
      · subst hoL
        rw [if_pos rfl, d5', hother _ hlmem]
      · rw [if_neg hoL, d7' o hoL (by have := hC.ub o ho; omega), hother o ho]
    have hskip : ∀ o ∈ c,
        bcmp (((setTail (appendState s k v) (bumpOffset s)).store o)).key k ≠ .gt ∧
        (bcmp (((setTail (appendState s k v) (bumpOffset s)).store o)).key k = .eq →
          ((setTail (appendState s k v) (bumpOffset s)).store o).removed = true) := by
      intro o ho
      have hk : (((setTail (appendState s k v) (bumpOffset s)).store o)).key =
          (s.store o).key := by
        by_cases hoL : o = s.last
        · rw [hstore_c o ho, if_pos hoL, hoL]
          rfl
        · rw [hstore_c o ho, if_neg hoL]
      have hrm : ((setTail (appendState s k v) (bumpOffset s)).store o).removed =
          (s.store o).removed := by
        by_cases hoL : o = s.last
        · rw [hstore_c o ho, if_pos hoL, hoL]
        · rw [hstore_c o ho, if_neg hoL]
      refine ⟨?_, ?_⟩
      · rw [hk]
        rcases hT with hTlt | ⟨hTeq, _⟩
        · rw [bcmp_lt_of_le_of_lt (hLe o ho) hTlt]
          intro h
          cases h
        · have hkk := bcmp_eq_iff.1 hTeq
          rw [← hkk]
          exact hLe o ho
      · intro heq
        rw [hk] at heq
        rw [hrm]
        exact hnolive o ho heq
    have hlen : (c ++ [bumpOffset s]).length <
        (setTail (appendState s k v) (bumpOffset s)).size := by
      rw [t5]
      simp only [List.length_append, List.length_cons, List.length_nil]
      omega
    refine getOp_found_of_chain t1 hlen hskip ?_ ?_ ?_
    · rw [t6, Rec.key_mk, List.take_left]
    · rw [t6]
    · rw [t6, Rec.value_mk, List.drop_left, List.take_length]
  · rw [if_neg hT]
    by_cases hH : bcmp ((s.store s.first)).key k = .gt ∨
        (bcmp ((s.store s.first)).key k = .eq ∧ (s.store s.first).removed = true)
    · rw [if_pos hH]
      obtain ⟨t1, t2, t3, t4, t5, t6, t7⟩ := setHead_ok hC hwf hli0 hadm hH
      refine ⟨_, rfl, ?_⟩
      have t1' : ChainOk (setHead (appendState s k v) (bumpOffset s))
          ([] ++ bumpOffset s :: c) := t1
      have hlen : (([] : List Nat) ++ bumpOffset s :: c).length <
          (setHead (appendState s k v) (bumpOffset s)).size := by
        rw [t5]
        simp only [List.nil_append, List.length_cons]
        omega
      refine @getOp_found_of_chain _ [] (bumpOffset s) c k v t1' hlen ?_ ?_ ?_ ?_
      · intro o ho
        cases ho
      · rw [t6, Rec.key_mk, List.take_left]
      · rw [t6]
      · rw [t6, Rec.value_mk, List.drop_left, List.take_length]
    · rw [if_neg hH]
      have htailU : ¬(bcmp ((appendState s k v).store
            (appendState s k v).last).key k = .lt ∨
          (bcmp ((appendState s k v).store (appendState s k v).last).key k = .eq ∧
            ((appendState s k v).store (appendState s k v).last).removed = true)) := by
        rw [appendState_last, hother s.last hlmem]
        exact hT
      have hheadU : ¬(bcmp ((appendState s k v).store
            (appendState s k v).first).key k = .gt ∨
          (bcmp ((appendState s k v).store (appendState s k v).first).key k = .eq ∧
            ((appendState s k v).store (appendState s k v).first).removed = true)) := by
        rw [appendState_first, hother s.first hfmem]
        exact hH
      have hdecomp : c = c.dropLast ++ [c.getLast hcne] :=
        (List.dropLast_append_getLast hcne).symm
      have hlastEq : s.last = c.getLast hcne := by
        have := @links_last_eq (appendState s k v) c c.dropLast (c.getLast hcne)
          hCu.linked hdecomp
        simpa using this
      have hflen : c.dropLast.length < (appendState s k v).size := by
        simp only [appendState_size, List.length_dropLast]
        omega
      have hwalk := @walkGen_aux (appendState s k v) (bumpOffset s) k c
        hCu.linked htailU hheadU c.dropLast (c.getLast hcne) []
        (appendState s k v).size hdecomp (by intro x hx; cases hx) hflen
      have hcall : walkGen (appendState s k v).size (appendState s k v)
          (bumpOffset s) k (appendState s k v).last =
          walkGen (appendState s k v).size (appendState s k v)
            (bumpOffset s) k (c.getLast hcne) := by
        rw [appendState_last, hlastEq]
      rcases hwalk with ⟨heq, hex⟩ | ⟨A', p', b1', B', hc2, hlt2, hsk2, heq2⟩
      · obtain ⟨j, hj, hjeq, hjlive⟩ := hex
        rw [hother j hj] at hjeq hjlive
        rw [hnolive j hj hjeq] at hjlive
        cases hjlive
      · have hpmem : p' ∈ c := by
          rw [hc2]
          exact List.mem_append_right _ (List.mem_cons_self ..)
        have hbmem : b1' ∈ c := by
          rw [hc2]
          exact List.mem_append_right _ (by simp)
        have hlt2' : bcmp (s.store p').key k = .lt := by
          rw [← hother p' hpmem]
          exact hlt2
        have hgeb1 : bcmp k (s.store b1').key ≠ .gt := by
          have hsb := hsk2 b1' (List.mem_cons_self ..)
          unfold SkipRec at hsb
          rw [hother b1' hbmem] at hsb
          rcases hsb with h | h
          · rw [bcmp_gt_iff_lt] at h
            rw [h]
            intro hx
            cases hx
          · have heqk := bcmp_eq_iff.1 h.1
            rw [← heqk, bcmp_refl]
            intro hx
            cases hx
        obtain ⟨t1, t2, t3, t4, t5, t6, t7⟩ :=
          splice_ok hC hwf hli0 hadm hc2 hlt2' hgeb1
        rw [hcall, heq2]
        refine ⟨_, rfl, ?_⟩
        obtain ⟨nodA, nodPB, disjA⟩ := List.nodup_append.1 (hc2 ▸ hC.nodup)
        have hpbB : p' ∉ b1' :: B' := (List.nodup_cons.1 nodPB).1
        have hpbne : p' ≠ b1' := fun heqx => hpbB (heqx ▸ List.mem_cons_self ..)
        have hp24 : rootLength ≤ p' := links_lb hC.linked p' hpmem
        have hb24 : rootLength ≤ b1' := links_lb hC.linked b1' hbmem
        have hpub : p' ≤ s.lastInserted := hC.ub _ hpmem
        have hbub : b1' ≤ s.lastInserted := hC.ub _ hbmem
        have hp0 : p' ≠ 0 := by simp at hp24; omega
        have hb0 : b1' ≠ 0 := by simp at hb24; omega
        have hcip : bumpOffset s ≠ p' := by omega
        have hcib : bumpOffset s ≠ b1' := by omega
        obtain ⟨d1, d2, d3, d4, d5, d6, d7, d8⟩ :=
          @splice_desc (appendState s k v) (bumpOffset s) p' b1'
            hci0 hp0 hb0 hpbne hcip hcib
        have hshape : A' ++ p' :: bumpOffset s :: b1' :: B' =
            (A' ++ [p']) ++ bumpOffset s :: b1' :: B' := by simp
        have t1' : ChainOk (spliceState (appendState s k v) (bumpOffset s) p' b1')
            ((A' ++ [p']) ++ bumpOffset s :: b1' :: B') := by
          rw [← hshape]
          exact t1
        have hpre_store : ∀ o ∈ A' ++ [p'],
            ((spliceState (appendState s k v) (bumpOffset s) p' b1').store o).key =
              (s.store o).key ∧
            ((spliceState (appendState s k v) (bumpOffset s) p' b1').store o).removed =
              (s.store o).removed := by
          intro o ho
          rcases List.mem_append.1 ho with hoA | hoP
          · have ho_c : o ∈ c := hc2 ▸ List.mem_append_left _ hoA
            have h1 : o ≠ p' := fun he => disjA hoA (he ▸ List.mem_cons_self ..)
            have h2 : o ≠ b1' := fun he => disjA hoA (he ▸ by simp)
            have h3 : o ≠ bumpOffset s := by have := hC.ub o ho_c; omega
            rw [d8 o h3 h1 h2, hother o ho_c]
            exact ⟨rfl, rfl⟩
          · rcases List.mem_singleton.1 hoP with rfl
            rw [d6, hother _ hpmem]
            exact ⟨rfl, rfl⟩
        have hpre_lt : ∀ o ∈ A' ++ [p'], bcmp (s.store o).key k = .lt := by
          intro o ho
          rcases List.mem_append.1 ho with hoA | hoP
          · exact bcmp_lt_of_le_of_lt (sorted_prefix_le hC hc2 o hoA) hlt2'
          · rcases List.mem_singleton.1 hoP with rfl
            exact hlt2'
        have hskip : ∀ o ∈ A' ++ [p'],
            bcmp (((spliceState (appendState s k v) (bumpOffset s) p' b1').store o)).key
              k ≠ .gt ∧
            (bcmp (((spliceState (appendState s k v) (bumpOffset s) p' b1').store o)).key
              k = .eq →
              ((spliceState (appendState s k v) (bumpOffset s) p' b1').store o).removed =
                true) := by
          intro o ho
          obtain ⟨hk, hrm⟩ := hpre_store o ho
          rw [hk, hpre_lt o ho]
          constructor
          · intro h
            cases h
          · intro h
            cases h
        have hlen : ((A' ++ [p']) ++ bumpOffset s :: b1' :: B').length <
            (spliceState (appendState s k v) (bumpOffset s) p' b1').size := by
          rw [t5]
          have hclen2 : (A' ++ p' :: b1' :: B').length = c.length := by rw [hc2]
          simp only [List.length_append, List.length_cons, List.length_nil] at hclen2 ⊢
          omega
        refine @getOp_found_of_chain _ (A' ++ [p']) (bumpOffset s) (b1' :: B') k v
          t1' hlen hskip ?_ ?_ ?_
        · rw [t6, Rec.key_mk, List.take_left]
        · rw [t6]
        · rw [t6, Rec.value_mk, List.drop_left, List.take_length]

/-! ### Claim C7 -/

/-- C7: from any reachable state whose chain holds a live record for key
`k` (with some value `v1`), `Remove(k)` terminates, the following
`Set(k, v2)` (with a successful truncate, and `k`, `v2` in the faithful
size regime) returns success, and a subsequent `Get(k)` returns `v2`.
The `Remove` tombstones every record of key `k`; the new `Set` then goes
through one of the three insertion paths, and the forward `Get` walk
reaches the fresh live record before any greater key. -/
theorem c7_remove_set_get {s : LM} {c : List Nat} {k v1 v2 : List Nat} {o : Nat}
    (hr : Reach s) (hC : ChainOk s c) (ho : o ∈ c)
    (hkey : (s.store o).key = k) (hlive : (s.store o).removed = false)
    (hv1 : (s.store o).value = v1) (hadm : KVAdm k v2) :
    ∃ s' t, removeOp s k = some s' ∧ setOp true s' k v2 = (t, .ok) ∧
      getOp t k = .found v2 := by
  have hwf := reach_wf hr
  have hcne : c ≠ [] := by
    intro hc
    rw [hc] at ho
    cases ho
  have hfmem : s.first ∈ c := by
    rcases hcc : c with _ | ⟨a, r⟩
    · exact absurd hcc hcne
    · have hl := hC.linked
      rw [hcc] at hl
      rw [(links_cons_iff.1 hl).2.1]
      exact List.mem_cons_self ..
  have hli0 : s.lastInserted ≠ 0 := by
    intro h0
    rcases hwf.rootSize with ⟨_, h2, _⟩ | ⟨h1, _⟩
    · have := links_lb hC.linked _ hfmem
      rw [h2] at this
      simp at this
    · rw [h0] at h1
      simp at h1
  have hf24 : rootLength ≤ s.first := links_lb hC.linked _ hfmem
  have hf0 : s.first ≠ 0 := by simp at hf24; omega
  have hsz : s.lastInserted < s.size := li_lt_size hwf
  obtain ⟨s', h1, h2, h3, h4, h5, h6⟩ :=
    removeOp_spec hC hsz (by omega) (Or.inl hf0)
  have hwf' : WF s' := wf_of_remove hC h2 h3 h4 h5 h6 hwf
  have hli0' : s'.lastInserted ≠ 0 := by
    rw [h4]
    exact hli0
  have hC' : ChainOk s' c := by
    refine chainOk_congr hC h2 h3 h4 ?_ ?_ ?_ ?_
    · intro j hj
      rw [h6 j]
      split <;> rfl
    · intro j hj
      rw [h6 j]
      split <;> rfl
    · intro j hj
      rw [h6 j]
      split <;> rfl
    · intro j hj hws
      rw [h6 j]
      split
      · exact ⟨hws.1, hws.2⟩
      · exact hws
  have hnolive' : ∀ j ∈ c, bcmp ((s'.store j)).key k = .eq →
      (s'.store j).removed = true := by
    intro j hj heq
    have hkeq : (s'.store j).key = (s.store j).key := by
      rw [h6 j]
      split <;> rfl
    rw [hkeq] at heq
    rw [h6 j, if_pos ⟨hj, heq⟩]
  by_cases hg : s'.lastInserted + constTruncateResize > s'.size
  · have hwfg : WF { s' with size := s'.size + constTruncateResize } :=
      wf_grow hwf' hli0' constTruncateResize
    have hCg : ChainOk { s' with size := s'.size + constTruncateResize } c :=
      chainOk_congr hC' rfl rfl rfl (fun o _ => rfl) (fun o _ => rfl)
        (fun o _ => rfl) (fun o _ hws => hws)
    have hnoliveg : ∀ j ∈ c,
        bcmp ((({ s' with size := s'.size + constTruncateResize } : LM).store j)).key
          k = .eq →
        (({ s' with size := s'.size + constTruncateResize } : LM).store j).removed =
          true := hnolive'
    obtain ⟨t, hset, hget⟩ := setMain_found hwfg hCg hadm
      (show ({ s' with size := s'.size + constTruncateResize } : LM).lastInserted ≠ 0
        from hli0') hnoliveg
    refine ⟨s', t, h1, ?_, hget⟩
    unfold setOp
    rw [if_pos hg]
    exact hset
  · obtain ⟨t, hset, hget⟩ := setMain_found hwf' hC' hadm hli0' hnolive'
    refine ⟨s', t, h1, ?_, hget⟩
    unfold setOp
    rw [if_neg hg]
    exact hset

/-- The one-record state used to witness C7. -/
def c7S : LM := (setOp true initLM [97] [1]).1

theorem c7_remove_set_get_witness :
    ∃ s' t, removeOp c7S [97] = some s' ∧ setOp true s' [97] [2] = (t, .ok) ∧
      getOp t [97] = .found [2] :=
  @c7_remove_set_get c7S [24] [97] [1] [2] 24
    (Reach.set true Reach.init (by unfold KVAdm ; decide))
    ⟨by decide, by decide, by decide,
      by intro o ho; fin_cases ho <;> (unfold WellSized ; decide), by decide⟩
    (by decide) (by decide) (by decide) (by decide) (by unfold KVAdm ; decide)

/-! ### Claim C6 -/

/-- C6: when `Set`'s tail and head fast paths both fail (and no live
record of the key exists, so `ErrKeyPresent` is not hit), the insertion
point is found by the backward walk from `last`: the chain splits as
`A ++ p :: b1 :: B` where every record from `b1` on is skipped by the
walk (strictly greater key, or equal key with the tombstone set — so a
tombstoned equal record never terminates the walk) and `p` is the first
record encountered whose key is strictly less than the new key; `Set`
returns success with exactly the four splice link writes
(`spliceState`): the predecessor `p`'s next, the new record's prev and
next, and the successor `b1`'s prev. -/
theorem c6_general_path {s : LM} {c : List Nat} {k v : List Nat}
    (hwf : WF s) (hC : ChainOk s c)
    (hli0 : s.lastInserted ≠ 0)
    (hT : ¬(bcmp ((s.store s.last)).key k = .lt ∨
      (bcmp ((s.store s.last)).key k = .eq ∧ (s.store s.last).removed = true)))
    (hH : ¬(bcmp ((s.store s.first)).key k = .gt ∨
      (bcmp ((s.store s.first)).key k = .eq ∧ (s.store s.first).removed = true)))
    (hnolive : ∀ o ∈ c, bcmp ((s.store o)).key k = .eq →
      (s.store o).removed = true) :
    ∃ A p b1 B, c = A ++ p :: b1 :: B ∧
      bcmp ((s.store p)).key k = .lt ∧
      (∀ x ∈ b1 :: B, SkipRec s k x) ∧
      setMain s k v =
        (spliceState (appendState s k v) (bumpOffset s) p b1, .ok) ∧
      ((spliceState (appendState s k v) (bumpOffset s) p b1).store p).next =
        bumpOffset s ∧
      ((spliceState (appendState s k v) (bumpOffset s) p b1).store
        (bumpOffset s)).prev = p ∧
      ((spliceState (appendState s k v) (bumpOffset s) p b1).store
        (bumpOffset s)).next = b1 ∧
      ((spliceState (appendState s k v) (bumpOffset s) p b1).store b1).prev =
        bumpOffset s := by
  obtain ⟨w1, w2, w3, w4⟩ : rootLength ≤ s.lastInserted ∧ rootLength ≤ s.first ∧
      WellSized (s.store s.lastInserted) ∧
      s.lastInserted + recSize (s.store s.lastInserted) ≤ s.size := by
    rcases hwf.rootSize with ⟨h1, _⟩ | h
    · exact absurd h1 hli0
    · exact h
  have hliSz : s.lastInserted < s.size := li_lt_size hwf
  have hlt' : s.lastInserted < bumpOffset s := by
    have := bumpOffset_gt hli0 w3
    simp at this
    omega
  obtain ⟨hCu, hother⟩ := @appendState_chainOk s c k v hC hlt'
  have hcne : c ≠ [] := by
    intro hceq
    rw [hceq] at hC
    obtain ⟨hfi, _⟩ := links_nil_iff.1 hC.linked
    rw [hfi] at w2
    simp at w2
  have hlmem : s.last ∈ c := by
    rcases hcc : c with _ | ⟨a, r⟩
    · exact absurd hcc hcne
    · rw [hcc] at hC
      obtain ⟨_, _, _, hfrom⟩ := links_cons_iff.1 hC.linked
      rw [(linksFrom_last hfrom).1]
      exact chainEnd_mem a r
  have hfmem : s.first ∈ c := by
    rcases hcc : c with _ | ⟨a, r⟩
    · exact absurd hcc hcne
    · rw [hcc] at hC
      rw [(links_cons_iff.1 hC.linked).2.1]
      exact List.mem_cons_self ..
  have hl24 : rootLength ≤ s.last := links_lb hC.linked _ hlmem
  have hl0 : s.last ≠ 0 := by simp at hl24; omega
  have hf0 : s.first ≠ 0 := by simp at w2; omega
  have hclen : c.length ≤ s.lastInserted :=
    nodup_bounded_length hC.nodup (links_lb hC.linked) hC.ub
  have hconvL : readRec (appendState s k v) (appendState s k v).last =
      s.store s.last := by
    rw [appendState_last, readRec_pos hl0]
    exact hother s.last hlmem
  have hconvF : readRec (appendState s k v) (appendState s k v).first =
      s.store s.first := by
    rw [appendState_first, readRec_pos hf0]
    exact hother s.first hfmem
  have hci0 : bumpOffset s ≠ 0 := by
    simp only [rootLength_eq] at w1
    omega
  have htailU : ¬(bcmp ((appendState s k v).store
        (appendState s k v).last).key k = .lt ∨
      (bcmp ((appendState s k v).store (appendState s k v).last).key k = .eq ∧
        ((appendState s k v).store (appendState s k v).last).removed = true)) := by
    rw [appendState_last, hother s.last hlmem]
    exact hT
  have hheadU : ¬(bcmp ((appendState s k v).store
        (appendState s k v).first).key k = .gt ∨
      (bcmp ((appendState s k v).store (appendState s k v).first).key k = .eq ∧
        ((appendState s k v).store (appendState s k v).first).removed = true)) := by
    rw [appendState_first, hother s.first hfmem]
    exact hH
  have hdecomp : c = c.dropLast ++ [c.getLast hcne] :=
    (List.dropLast_append_getLast hcne).symm
  have hlastEq : s.last = c.getLast hcne := by
    have := @links_last_eq (appendState s k v) c c.dropLast (c.getLast hcne)
      hCu.linked hdecomp
    simpa using this
  have hflen : c.dropLast.length < (appendState s k v).size := by
    simp only [appendState_size, List.length_dropLast]
    omega
  have hwalk := @walkGen_aux (appendState s k v) (bumpOffset s) k c
    hCu.linked htailU hheadU c.dropLast (c.getLast hcne) []
    (appendState s k v).size hdecomp (by intro x hx; cases hx) hflen
  have hcall : walkGen (appendState s k v).size (appendState s k v)
      (bumpOffset s) k (appendState s k v).last =
      walkGen (appendState s k v).size (appendState s k v)
        (bumpOffset s) k (c.getLast hcne) := by
    rw [appendState_last, hlastEq]
  rcases hwalk with ⟨heq, hex⟩ | ⟨A', p', b1', B', hc2, hlt2, hsk2, heq2⟩
  · obtain ⟨j, hj, hjeq, hjlive⟩ := hex
    rw [hother j hj] at hjeq hjlive
    rw [hnolive j hj hjeq] at hjlive
    cases hjlive
  · have hpmem : p' ∈ c := by
      rw [hc2]
      exact List.mem_append_right _ (List.mem_cons_self ..)
    have hbmem : b1' ∈ c := by
      rw [hc2]
      exact List.mem_append_right _ (by simp)
    have hlt2' : bcmp (s.store p').key k = .lt := by
      rw [← hother p' hpmem]
      exact hlt2
    have hskS : ∀ x ∈ b1' :: B', SkipRec s k x := by
      intro x hx
      have hxc : x ∈ c := by
        rw [hc2]
        exact List.mem_append_right _ (List.mem_cons_of_mem _ hx)
      have hsx := hsk2 x hx
      unfold SkipRec at hsx ⊢
      rw [hother x hxc] at hsx
      exact hsx
    obtain ⟨nodA, nodPB, disjA⟩ := List.nodup_append.1 (hc2 ▸ hC.nodup)
    have hpbB : p' ∉ b1' :: B' := (List.nodup_cons.1 nodPB).1
    have hpbne : p' ≠ b1' := fun heqx => hpbB (heqx ▸ List.mem_cons_self ..)
    have hp24 : rootLength ≤ p' := links_lb hC.linked p' hpmem
    have hb24 : rootLength ≤ b1' := links_lb hC.linked b1' hbmem
    have hpub : p' ≤ s.lastInserted := hC.ub _ hpmem
    have hbub : b1' ≤ s.lastInserted := hC.ub _ hbmem
    have hp0 : p' ≠ 0 := by simp at hp24; omega
    have hb0 : b1' ≠ 0 := by simp at hb24; omega
    have hcip : bumpOffset s ≠ p' := by omega
    have hcib : bumpOffset s ≠ b1' := by omega
    obtain ⟨d1, d2, d3, d4, d5, d6, d7, d8⟩ :=
      @splice_desc (appendState s k v) (bumpOffset s) p' b1'
        hci0 hp0 hb0 hpbne hcip hcib
    refine ⟨A', p', b1', B', hc2, hlt2', hskS, ?_, ?_, ?_, ?_, ?_⟩
    · rw [setMain_pos hli0, hconvL, hconvF, if_neg hT, if_neg hH, hcall, heq2]
    · rw [d6]
    · rw [d5]
    · rw [d5]
    · rw [d7]

/-- The two-record state (keys `[97]` and `[99]`) used to witness C6 with
the middle key `[98]`. -/
def c6S : LM := (setOp true (setOp true initLM [97] [1]).1 [99] [2]).1

theorem c6_general_path_witness :
    ∃ A p b1 B, ([24, 50] : List Nat) = A ++ p :: b1 :: B ∧
      bcmp ((c6S.store p)).key [98] = .lt ∧
      (∀ x ∈ b1 :: B, SkipRec c6S [98] x) ∧
      setMain c6S [98] [3] =
        (spliceState (appendState c6S [98] [3]) (bumpOffset c6S) p b1, .ok) ∧
      ((spliceState (appendState c6S [98] [3]) (bumpOffset c6S) p b1).store p).next =
        bumpOffset c6S ∧
      ((spliceState (appendState c6S [98] [3]) (bumpOffset c6S) p b1).store
        (bumpOffset c6S)).prev = p ∧
      ((spliceState (appendState c6S [98] [3]) (bumpOffset c6S) p b1).store
        (bumpOffset c6S)).next = b1 ∧
      ((spliceState (appendState c6S [98] [3]) (bumpOffset c6S) p b1).store b1).prev =
        bumpOffset c6S :=
  @c6_general_path c6S [24, 50] [98] [3]
    (reach_wf (Reach.set true
      (Reach.set true Reach.init (by unfold KVAdm ; decide))
      (by unfold KVAdm ; decide)))
    ⟨by decide, by decide, by decide,
      by intro o ho; fin_cases ho <;> (unfold WellSized ; decide), by decide⟩
    (by decide) (by decide) (by decide) (by decide)

/-! ### Claim C10 -/

/-- C10: for `Set` calls in the claim's regime (uint16-exact length
fields and records of at most half a growth chunk, `KVAdm`), the bytes
of the new record written by `Set` lie inside the mapped region: after
the capacity check (which grows the file by `constTruncateResize` when
needed), the state `sg` in which the writes happen keeps
`lastInserted + constTruncateResize ≤ size`, and the full extent of the
appended record — header, key and value, at `rootLength` for the first
record and at the bump offset otherwise — ends at or before `size`,
which `Set` never changes afterwards. -/
theorem c10_writes_in_bounds {s : LM} {k v : List Nat} (hr : Reach s)
    (hadm : KVAdm k v) :
    ∃ sg, (sg = s ∨ sg = { s with size := s.size + constTruncateResize }) ∧
      setOp true s k v = setMain sg k v ∧
      sg.lastInserted + constTruncateResize ≤ sg.size ∧
      (sg.lastInserted = 0 →
        rootLength + recordLength + k.length + v.length ≤ sg.size) ∧
      (sg.lastInserted ≠ 0 →
        bumpOffset sg + recordLength + k.length + v.length ≤ sg.size) ∧
      (setMain sg k v).1.size = sg.size := by
  have hwf := reach_wf hr
  have hKV := hadm
  unfold KVAdm at hKV
  have hle : s.lastInserted ≤ s.size := by
    rcases hwf.rootSize with ⟨h1, _, _, _⟩ | ⟨_, _, _, h4⟩
    · rw [h1]
      omega
    · omega
  by_cases hg : s.lastInserted + constTruncateResize > s.size
  · refine ⟨{ s with size := s.size + constTruncateResize }, Or.inr rfl,
      ?_, ?_, ?_, ?_, ?_⟩
    · unfold setOp
      rw [if_pos hg]
      rfl
    · show s.lastInserted + constTruncateResize ≤ s.size + constTruncateResize
      omega
    · intro hli
      show rootLength + recordLength + k.length + v.length ≤
        s.size + constTruncateResize
      unfold constTruncateResize
      simp only [rootLength_eq, recordLength_eq] at hKV ⊢
      omega
    · intro hli
      have hli' : s.lastInserted ≠ 0 := hli
      obtain ⟨w1, w2, w3, w4⟩ : rootLength ≤ s.lastInserted ∧
          rootLength ≤ s.first ∧ WellSized (s.store s.lastInserted) ∧
          s.lastInserted + recSize (s.store s.lastInserted) ≤ s.size := by
        rcases hwf.rootSize with ⟨h1, _⟩ | h
        · exact absurd h1 hli'
        · exact h
      have hbe : bumpOffset { s with size := s.size + constTruncateResize } =
          bumpOffset s := rfl
      rw [hbe, bumpOffset_eq hli' w3]
      show s.lastInserted + recSize (s.store s.lastInserted) + recordLength +
        k.length + v.length ≤ s.size + constTruncateResize
      have hrs : recSize (s.store s.lastInserted) ≤ 32768 := w3.2
      unfold constTruncateResize
      simp only [recordLength_eq] at hKV ⊢
      omega
    · by_cases hli : s.lastInserted = 0
      · rw [setMain_zero
          (show ({ s with size := s.size + constTruncateResize } : LM).lastInserted = 0
            from hli)]
        rfl
      · have hwfg := wf_grow hwf hli constTruncateResize
        have hroomg : ({ s with size := s.size + constTruncateResize } :
              LM).lastInserted + constTruncateResize ≤
            ({ s with size := s.size + constTruncateResize } : LM).size := by
          show s.lastInserted + constTruncateResize ≤ s.size + constTruncateResize
          omega
        exact (setMain_wf hwfg hadm hroomg).2.1
  · refine ⟨s, Or.inl rfl, ?_, by omega, ?_, ?_, ?_⟩
    · unfold setOp
      rw [if_neg hg]
    · intro hli
      unfold constTruncateResize at hg
      simp only [rootLength_eq, recordLength_eq] at hKV ⊢
      omega
    · intro hli
      obtain ⟨w1, w2, w3, w4⟩ : rootLength ≤ s.lastInserted ∧
          rootLength ≤ s.first ∧ WellSized (s.store s.lastInserted) ∧
          s.lastInserted + recSize (s.store s.lastInserted) ≤ s.size := by
        rcases hwf.rootSize with ⟨h1, _⟩ | h
        · exact absurd h1 hli
        · exact h
      rw [bumpOffset_eq hli w3]
      have hrs : recSize (s.store s.lastInserted) ≤ 32768 := w3.2
      unfold constTruncateResize at hg
      simp only [recordLength_eq] at hKV ⊢
      omega
    · exact (setMain_wf hwf hadm (by omega)).2.1

theorem c10_writes_in_bounds_witness :
    ∃ sg, (sg = initLM ∨
        sg = { initLM with size := initLM.size + constTruncateResize }) ∧
      setOp true initLM [1] [2] = setMain sg [1] [2] ∧
      sg.lastInserted + constTruncateResize ≤ sg.size ∧
      (sg.lastInserted = 0 →
        rootLength + recordLength + ([1] : List Nat).length +
          ([2] : List Nat).length ≤ sg.size) ∧
      (sg.lastInserted ≠ 0 →
        bumpOffset sg + recordLength + ([1] : List Nat).length +
          ([2] : List Nat).length ≤ sg.size) ∧
      (setMain sg [1] [2]).1.size = sg.size :=
  c10_writes_in_bounds Reach.init (by unfold KVAdm ; decide)

end Listmap
